import Mathlib

/-!
Shallow embedding of the ThumbHash codec (`src/rust/src/lib.rs` of
evanw/thumbhash) and proofs about it.

Modeling conventions:
* `f32` values are modeled as exact rationals (`ℚ`).  The only
  transcendental operation the code uses, `(PI * t).cos()`, is modeled by
  an abstract function `c : ℚ → ℚ` applied to the exact rational `t`
  (the factor `π` is absorbed into `c`); theorems that depend on the
  analytic fact `|cos| ≤ 1` take that bound as a hypothesis on `c`.
* Rust's saturating float-to-integer casts (`as u8` / `as u32` /
  `as usize` on an `f32`), its wrapping integer-to-integer casts, and
  `f32::round` (round half away from zero) are modeled exactly.
* Bytes (`u8`) are modeled as `ℕ`; theorems about decoder inputs carry
  the hypothesis that every byte is `< 256` where it matters.
* `Vec` / slices are modeled as `List`, fallible reads as `Except Unit`
  (`.error ()` is the `TooShort` error `Err(())`), and a Rust panic
  (out-of-bounds slice indexing) as `Option.none`.
-/

namespace ThumbHash

/-- `q.round()` of Rust `f32`: round half away from zero. -/
def rustRound (q : ℚ) : ℤ :=
  if q < 0 then -(⌊-q + 1/2⌋) else ⌊q + 1/2⌋

/-- Rust saturating cast of a (rounded) `f32` to `u8`. -/
def toU8 (z : ℤ) : ℕ := min z.toNat 255

/-- Rust saturating cast of a (rounded) `f32` to `u16`. -/
def toU16 (z : ℤ) : ℕ := min z.toNat (2 ^ 16 - 1)

/-- Rust saturating cast of a (rounded) `f32` to `u32`. -/
def toU32 (z : ℤ) : ℕ := min z.toNat (2 ^ 32 - 1)

/-- Rust saturating cast of a (rounded) `f32` to `usize` (64-bit). -/
def toUsize (z : ℤ) : ℕ := min z.toNat (2 ^ 64 - 1)

/-- Rust truncating cast `q as u8` of a nonnegative `f32` (used for the
final pixel values, after clamping to `[0,1]` and scaling by 255). -/
def truncU8 (q : ℚ) : ℕ := min (Int.toNat ⌊q⌋) 255

/-- `q.clamp(0.0, 1.0)`. -/
def clamp01 (q : ℚ) : ℚ := min (max q 0) 1

/-- The cosine basis value `(PI / n * k * (i + 0.5)).cos()`, with the
abstract cosine `c` (which takes the argument divided by `π`). -/
def cosK (c : ℚ → ℚ) (n k i : ℕ) : ℚ := c ((k * (2 * i + 1) : ℚ) / (2 * n))

/-- `rgba.chunks_exact(4)`: the pixel list `(r, g, b, a)`; an incomplete
trailing chunk is dropped, exactly as in Rust. -/
def chunks4 : List ℕ → List (ℕ × ℕ × ℕ × ℕ)
  | r :: g :: b :: a :: rest => (r, g, b, a) :: chunks4 rest
  | _ => []

/-- The accumulated `avg_a` (lines 18–25): each pixel contributes
`rgba[3] as f32 / 255.0`.  The accumulation loop is modeled as a list
sum. -/
def sumAlpha (px : List (ℕ × ℕ × ℕ × ℕ)) : ℚ :=
  (px.map fun p => (p.2.2.2 : ℚ) / 255).sum

/-- The accumulated `avg_r` numerator: `alpha / 255.0 * rgba[0]`. -/
def sumR (px : List (ℕ × ℕ × ℕ × ℕ)) : ℚ :=
  (px.map fun p => (p.2.2.2 : ℚ) / 255 / 255 * p.1).sum

/-- The accumulated `avg_g` numerator. -/
def sumG (px : List (ℕ × ℕ × ℕ × ℕ)) : ℚ :=
  (px.map fun p => (p.2.2.2 : ℚ) / 255 / 255 * p.2.1).sum

/-- The accumulated `avg_b` numerator. -/
def sumB (px : List (ℕ × ℕ × ℕ × ℕ)) : ℚ :=
  (px.map fun p => (p.2.2.2 : ℚ) / 255 / 255 * p.2.2.1).sum

/-- Lines 26–30: divide the accumulated sums by `avg_a` when it is
positive (otherwise they stay `0`, the average defaults to black). -/
def avgRGB (px : List (ℕ × ℕ × ℕ × ℕ)) : ℚ × ℚ × ℚ :=
  let aa := sumAlpha px
  if 0 < aa then (sumR px / aa, sumG px / aa, sumB px / aa)
  else (sumR px, sumG px, sumB px)

/-- Lines 42–51: convert one RGBA pixel to `(l, p, q, a)` after
compositing atop the average color. -/
def lpqaPixel (avg_r avg_g avg_b : ℚ) (px : ℕ × ℕ × ℕ × ℕ) : ℚ × ℚ × ℚ × ℚ :=
  let alpha : ℚ := (px.2.2.2 : ℚ) / 255
  let r := avg_r * (1 - alpha) + alpha / 255 * px.1
  let g := avg_g * (1 - alpha) + alpha / 255 * px.2.1
  let b := avg_b * (1 - alpha) + alpha / 255 * px.2.2.1
  ((r + g + b) / 3, (r + g) / 2 - b, r - g, alpha)

/-- The encoder's triangular frequency scan for a channel with grid
`nx × ny` (lines 59–80): `cy` outer from 0, `cx` inner from 0 while
`cx * ny < nx * (ny - cy)`; the condition is antitone in `cx`, so the
`while` loop visits exactly a prefix of `0, 1, 2, …`. -/
def triangle (nx ny : ℕ) : List (ℕ × ℕ) :=
  (List.range ny).flatMap fun cy =>
    ((List.range nx).takeWhile fun cx => decide (cx * ny < nx * (ny - cy))).map
      fun cx => (cx, cy)

/-- The decoder's triangular scan (lines 189–203): identical except that
`cx` starts at 1 on the row `cy = 0`, skipping the DC position. -/
def triangleD (nx ny : ℕ) : List (ℕ × ℕ) :=
  (List.range ny).flatMap fun cy =>
    (((List.range nx).drop (if cy = 0 then 1 else 0)).takeWhile fun cx =>
        decide (cx * ny < nx * (ny - cy))).map
      fun cx => (cx, cy)

/-- One DCT coefficient (lines 62–72): the double loop over the image is
modeled as a sum, divided by `w * h` at the end as in the source. -/
def dctCoeff (c : ℚ → ℚ) (w h : ℕ) (channel : List ℚ) (cx cy : ℕ) : ℚ :=
  (((List.range h).map fun y =>
      ((List.range w).map fun x =>
        channel.getD (x + y * w) 0 * cosK c w cx x * cosK c h cy y).sum).sum)
    / (w * h : ℕ)

/-- One step of the encoder's coefficient loop (lines 73–78): the
`(0,0)` coefficient becomes `dc`, all others are appended to `ac` and
enter the running `scale = f.abs().max(scale)`. -/
def encStep (c : ℚ → ℚ) (w h : ℕ) (channel : List ℚ)
    (acc : ℚ × List ℚ × ℚ) (p : ℕ × ℕ) : ℚ × List ℚ × ℚ :=
  let f := dctCoeff c w h channel p.1 p.2
  if 0 < p.1 ∨ 0 < p.2 then (acc.1, acc.2.1 ++ [f], max |f| acc.2.2)
  else (f, acc.2.1, acc.2.2)

/-- `encode_channel` (lines 54–88): run the triangular scan, then
normalize the AC list by the scale when the scale is positive. -/
def encode_channel (c : ℚ → ℚ) (w h : ℕ) (channel : List ℚ) (nx ny : ℕ) :
    ℚ × List ℚ × ℚ :=
  let r := (triangle nx ny).foldl (encStep c w h channel) (0, [], 0)
  if 0 < r.2.2 then (r.1, r.2.1.map fun a => 1/2 + 1/2 / r.2.2 * a, r.2.2)
  else r

/-- Modify the last element of a list (`hash.last_mut().unwrap()`; the
list is never empty at the call sites since the header was pushed
first). -/
def updateLast (f : ℕ → ℕ) : List ℕ → List ℕ
  | [] => []
  | [x] => [f x]
  | x :: y :: rest => x :: updateLast f (y :: rest)

/-- Push one quantized nibble (lines 126–131): into the high nibble of
the last byte when `is_odd`, else as a fresh byte.  The `u8` shift
`u << 4` wraps modulo 256 as in Rust. -/
def pushNibble (acc : List ℕ × Bool) (u : ℕ) : List ℕ × Bool :=
  if acc.2 then (updateLast (fun b => b ||| (u <<< 4) % 256) acc.1, false)
  else (acc.1 ++ [u], true)

/-- Quantize (`(15.0 * f).round() as u8`) and push a whole AC list. -/
def pushAC (acc : List ℕ × Bool) (fs : List ℚ) : List ℕ × Bool :=
  fs.foldl (fun acc f => pushNibble acc (toU8 (rustRound (15 * f)))) acc

/-- `has_alpha` (line 32): the summed alpha falls short of the
fully-opaque total `w * h`. -/
def hasAlphaFlag (w h : ℕ) (rgba : List ℕ) : Bool :=
  decide (sumAlpha (chunks4 rgba) < ((w * h : ℕ) : ℚ))

/-- One L-grid dimension (lines 34–35):
`(((l_limit * d) as f32 / m as f32).round() as usize).max(1)` where `m`
is `w.max(h)`.  (For `m = 0` the rational convention `x / 0 = 0` yields
`1` after `.max(1)`, which agrees with Rust's NaN-to-integer cast.) -/
def lGridDim (l_limit d m : ℕ) : ℕ :=
  max (toUsize (rustRound (((l_limit * d : ℕ) : ℚ) / (m : ℚ)))) 1

/-- All intermediate values of the encoder up to line 108. -/
structure EncParts where
  has_alpha : Bool
  is_landscape : Bool
  lx : ℕ
  ly : ℕ
  l_dc : ℚ
  l_ac : List ℚ
  l_scale : ℚ
  p_dc : ℚ
  p_ac : List ℚ
  p_scale : ℚ
  q_dc : ℚ
  q_ac : List ℚ
  q_scale : ℚ
  a_dc : ℚ
  a_ac : List ℚ
  a_scale : ℚ

/-- Lines 14–99 of `rgba_to_thumb_hash`: averages, grid dimensions and
the four channel transforms. -/
def encParts (c : ℚ → ℚ) (w h : ℕ) (rgba : List ℕ) : EncParts :=
  let px := chunks4 rgba
  let avg := avgRGB px
  let has_alpha : Bool := hasAlphaFlag w h rgba
  let l_limit : ℕ := if has_alpha then 5 else 7
  let lx := lGridDim l_limit w (max w h)
  let ly := lGridDim l_limit h (max w h)
  let lpq := px.map (lpqaPixel avg.1 avg.2.1 avg.2.2)
  let cl := encode_channel c w h (lpq.map (·.1)) (max lx 3) (max ly 3)
  let cp := encode_channel c w h (lpq.map (·.2.1)) 3 3
  let cq := encode_channel c w h (lpq.map (·.2.2.1)) 3 3
  let ca :=
    if has_alpha then encode_channel c w h (lpq.map (·.2.2.2)) 5 5
    else (1, ([] : List ℚ), 1)
  ⟨has_alpha, decide (h < w), lx, ly, cl.1, cl.2.1, cl.2.2,
   cp.1, cp.2.1, cp.2.2, cq.1, cq.2.1, cq.2.2, ca.1, ca.2.1, ca.2.2⟩

/-- `header24` (lines 100–104).  The `u32` shifts wrap modulo `2^32` as
in Rust. -/
def encHeader24 (e : EncParts) : ℕ :=
  toU32 (rustRound (63 * e.l_dc))
  ||| (toU32 (rustRound (31.5 + 31.5 * e.p_dc)) <<< 6) % 2 ^ 32
  ||| (toU32 (rustRound (31.5 + 31.5 * e.q_dc)) <<< 12) % 2 ^ 32
  ||| (toU32 (rustRound (31 * e.l_scale)) <<< 18) % 2 ^ 32
  ||| (if e.has_alpha then 1 <<< 23 else 0)

/-- `header16` (lines 105–108). -/
def encHeader16 (e : EncParts) : ℕ :=
  (if e.is_landscape then e.ly else e.lx) % 2 ^ 16
  ||| (toU16 (rustRound (63 * e.p_scale)) <<< 3) % 2 ^ 16
  ||| (toU16 (rustRound (63 * e.q_scale)) <<< 9) % 2 ^ 16
  ||| (if e.is_landscape then 1 <<< 15 else 0)

/-- Lines 109–120: the five header bytes, plus the alpha DC/scale byte
when the alpha flag is set.  The `as u8` casts wrap modulo 256. -/
def encHeaderBytes (e : EncParts) : List ℕ :=
  let header24 := encHeader24 e
  let header16 := encHeader16 e
  let hash5 : List ℕ :=
    [header24 &&& 255, (header24 >>> 8) &&& 255, (header24 >>> 16) % 256,
     header16 &&& 255, (header16 >>> 8) % 256]
  if e.has_alpha then
    hash5 ++ [toU8 (rustRound (15 * e.a_dc)) |||
                (toU8 (rustRound (15 * e.a_scale)) <<< 4) % 256]
  else hash5

/-- The AC quantizer `(15.0 * f).round() as u8` (lines 125 and 136),
identical for every channel. -/
def encNib (f : ℚ) : ℕ := toU8 (rustRound (15 * f))

/-- `rgba_to_thumb_hash` (lines 9–146).  The two `assert!`s of the
source are preconditions carried as hypotheses by the theorems. -/
def rgba_to_thumb_hash (c : ℚ → ℚ) (w h : ℕ) (rgba : List ℕ) : List ℕ :=
  let e := encParts c w h rgba
  let s1 := pushAC (encHeaderBytes e, false) e.l_ac
  let s2 := pushAC s1 e.p_ac
  let s3 := pushAC s2 e.q_ac
  let s4 := if e.has_alpha then pushAC s3 e.a_ac else s3
  s4.1

/-- `read_byte` (lines 148–152): take one byte off the front of the
slice, `Err(())` if it is empty. -/
def read_byte : List ℕ → Except Unit (ℕ × List ℕ)
  | [] => .error ()
  | b :: rest => .ok (b, rest)

/-- The value of an `f32` division of two nonnegative integers: a
finite rational, `+∞` (nonzero over zero), or NaN (zero over zero). -/
inductive F32x where
  | fin : ℚ → F32x
  | posInf : F32x
  | nan : F32x
deriving DecidableEq

/-- `lx as f32 / ly as f32`. -/
def f32DivNat (a b : ℕ) : F32x :=
  if b = 0 then (if a = 0 then .nan else .posInf) else .fin ((a : ℚ) / b)

/-- `ratio > 1.0` (any comparison with NaN is false). -/
def gtOne : F32x → Bool
  | .fin q => decide (1 < q)
  | .posInf => true
  | .nan => false

/-- `32.0 / ratio`.  Only evaluated under `ratio > 1.0`, so the `fin`
case has `q > 1`; `32 / +∞ = 0`. -/
def recip32 : F32x → ℚ
  | .fin q => 32 / q
  | .posInf => 0
  | .nan => 0

/-- `32.0 * ratio`.  Only evaluated under `¬(ratio > 1.0)`; the NaN
case models Rust's NaN-to-`usize` cast, which yields 0. -/
def times32 : F32x → ℚ
  | .fin q => 32 * q
  | .posInf => 0
  | .nan => 0

/-- Lines 216–220: output dimensions from the aspect ratio. -/
def dimsFromRatio (r : F32x) : ℕ × ℕ :=
  if gtOne r then (32, toUsize (rustRound (recip32 r)))
  else (toUsize (rustRound (times32 r)), 32)

/-- `thumb_hash_to_approximate_aspect_ratio` (lines 321–332).  The
indexing `hash[2]`, `hash[3]`, `hash[4]` is in bounds thanks to the
length check, so it is modeled with `getD`. -/
def thumb_hash_to_approximate_aspect_ratio (hash : List ℕ) : Except Unit F32x :=
  if hash.length < 5 then .error ()
  else
    let has_alpha : Bool := decide (hash.getD 2 0 &&& 128 ≠ 0)
    let l_max : ℕ := if has_alpha then 5 else 7
    let l_min : ℕ := hash.getD 3 0 &&& 7
    let is_landscape : Bool := decide (hash.getD 4 0 &&& 128 ≠ 0)
    let lx := if is_landscape then l_max else l_min
    let ly := if is_landscape then l_min else l_max
    .ok (f32DivNat lx ly)

/-- The header fields parsed by `thumb_hash_to_rgba` (lines 162–183),
together with the not-yet-consumed remainder of the input. -/
structure DecHeader where
  l_dc : ℚ
  p_dc : ℚ
  q_dc : ℚ
  l_scale : ℚ
  hasAlpha : Bool
  p_scale : ℚ
  q_scale : ℚ
  isLandscape : Bool
  lx : ℕ
  ly : ℕ
  a_dc : ℚ
  a_scale : ℚ
  rest : List ℕ
deriving DecidableEq

/-- Lines 162–183 of `thumb_hash_to_rgba`: read the 5 header bytes, the
alpha byte when the alpha flag is set, and decode all header fields. -/
def parseHeader (hash : List ℕ) : Except Unit DecHeader := do
  let (b0, h1) ← read_byte hash
  let (b1, h2) ← read_byte h1
  let (b2, h3) ← read_byte h2
  let (b3, h4) ← read_byte h3
  let (b4, h5) ← read_byte h4
  let header24 := b0 ||| (b1 <<< 8) ||| (b2 <<< 16)
  let header16 := b3 ||| (b4 <<< 8)
  let l_dc : ℚ := ((header24 &&& 63 : ℕ) : ℚ) / 63
  let p_dc : ℚ := (((header24 >>> 6) &&& 63 : ℕ) : ℚ) / 31.5 - 1
  let q_dc : ℚ := (((header24 >>> 12) &&& 63 : ℕ) : ℚ) / 31.5 - 1
  let l_scale : ℚ := (((header24 >>> 18) &&& 31 : ℕ) : ℚ) / 31
  let hasAlpha : Bool := decide (header24 >>> 23 ≠ 0)
  let p_scale : ℚ := (((header16 >>> 3) &&& 63 : ℕ) : ℚ) / 63
  let q_scale : ℚ := (((header16 >>> 9) &&& 63 : ℕ) : ℚ) / 63
  let isLandscape : Bool := decide (header16 >>> 15 ≠ 0)
  let l_max : ℕ := if hasAlpha then 5 else 7
  let lx := max 3 (if isLandscape then l_max else header16 &&& 7)
  let ly := max 3 (if isLandscape then header16 &&& 7 else l_max)
  if hasAlpha then do
    let (b5, h6) ← read_byte h5
    .ok ⟨l_dc, p_dc, q_dc, l_scale, hasAlpha, p_scale, q_scale, isLandscape,
         lx, ly, ((b5 &&& 15 : ℕ) : ℚ) / 15, ((b5 >>> 4 : ℕ) : ℚ) / 15, h6⟩
  else
    .ok ⟨l_dc, p_dc, q_dc, l_scale, hasAlpha, p_scale, q_scale, isLandscape,
         lx, ly, 1, 1, h5⟩

/-- Read the next nibble (lines 192–199): either the saved high nibble
of the previous byte, or the low nibble of a freshly read byte. -/
def readNib : Option ℕ × List ℕ → Except Unit (ℕ × (Option ℕ × List ℕ))
  | (some bits, bytes) => .ok (bits, (none, bytes))
  | (none, bytes) => do
      let (b, rest) ← read_byte bytes
      .ok (b &&& 15, (some (b >>> 4), rest))

/-- The body of `decode_channel` (lines 187–205): read one dequantized
AC value per triangle position, in scan order. -/
def decodeACList (scale : ℚ) :
    List (ℕ × ℕ) → Option ℕ × List ℕ → Except Unit (List ℚ × (Option ℕ × List ℕ))
  | [], st => .ok ([], st)
  | _ :: rest, st => do
      let (bits, st1) ← readNib st
      let (acs, st2) ← decodeACList scale rest st1
      .ok (((bits : ℚ) / 7.5 - 1) * scale :: acs, st2)

/-- `decode_channel` (lines 187–205) for an `nx × ny` grid. -/
def decode_channel (nx ny : ℕ) (scale : ℚ) (st : Option ℕ × List ℕ) :
    Except Unit (List ℚ × (Option ℕ × List ℕ)) :=
  decodeACList scale (triangleD nx ny) st

/-- The per-channel inverse-DCT accumulation of the pixel loop
(lines 239–277): `dc + Σ ac[j] * fx[cx] * (fy[cy] * 2)` over the
triangle in scan order, `j` counting positions.  (The source's
`cx < 3 - cy` and `cx < 5 - cy` loop bounds for P/Q/A equal the
triangle condition `cx * ny < nx * (ny - cy)` at `nx = ny`.) -/
def accChannel (c : ℚ → ℚ) (w h x y : ℕ) (tri : List (ℕ × ℕ))
    (ac : List ℚ) (dc : ℚ) : ℚ :=
  dc + (tri.enum.map fun jp =>
    ac.getD jp.1 0 * cosK c w jp.2.1 x * (cosK c h jp.2.2 y * 2)).sum

/-- One output pixel (lines 224–288). -/
def renderPixel (c : ℚ → ℚ) (lx ly : ℕ) (hasAlpha : Bool)
    (l_dc p_dc q_dc a_dc : ℚ) (l_ac p_ac q_ac a_ac : List ℚ)
    (w h x y : ℕ) : List ℕ :=
  let l := accChannel c w h x y (triangleD lx ly) l_ac l_dc
  let p := accChannel c w h x y (triangleD 3 3) p_ac p_dc
  let q := accChannel c w h x y (triangleD 3 3) q_ac q_dc
  let a := if hasAlpha then accChannel c w h x y (triangleD 5 5) a_ac a_dc else a_dc
  let b := l - 2 / 3 * p
  let r := (3 * l - b + q) / 2
  let g := r - q
  [truncU8 (clamp01 r * 255), truncU8 (clamp01 g * 255),
   truncU8 (clamp01 b * 255), truncU8 (clamp01 a * 255)]

/-- The full pixel loop (lines 221–290), row-major. -/
def renderImage (c : ℚ → ℚ) (lx ly : ℕ) (hasAlpha : Bool)
    (l_dc p_dc q_dc a_dc : ℚ) (l_ac p_ac q_ac a_ac : List ℚ)
    (w h : ℕ) : List ℕ :=
  (List.range h).flatMap fun y =>
    (List.range w).flatMap fun x =>
      renderPixel c lx ly hasAlpha l_dc p_dc q_dc a_dc l_ac p_ac q_ac a_ac w h x y

/-- `thumb_hash_to_rgba` (lines 159–292). -/
def thumb_hash_to_rgba (c : ℚ → ℚ) (hash : List ℕ) :
    Except Unit (ℕ × ℕ × List ℕ) := do
  let ratio ← thumb_hash_to_approximate_aspect_ratio hash
  let hd ← parseHeader hash
  let (l_ac, st1) ← decode_channel hd.lx hd.ly hd.l_scale (none, hd.rest)
  let (p_ac, st2) ← decode_channel 3 3 (hd.p_scale * 1.25) st1
  let (q_ac, st3) ← decode_channel 3 3 (hd.q_scale * 1.25) st2
  let (a_ac, _) ←
    if hd.hasAlpha then decode_channel 5 5 hd.a_scale st3
    else Except.ok ([], st3)
  let (w, h) := dimsFromRatio ratio
  .ok (w, h,
    renderImage c hd.lx hd.ly hd.hasAlpha hd.l_dc hd.p_dc hd.q_dc hd.a_dc
      l_ac p_ac q_ac a_ac w h)

/-- `thumb_hash_to_average_rgba` (lines 298–316).  Every `hash[i]` is
Rust slice indexing, which panics when the index is out of bounds; a
panic is modeled as `none`. -/
def thumb_hash_to_average_rgba (hash : List ℕ) :
    Option (Except Unit (ℚ × ℚ × ℚ × ℚ)) :=
  if hash.length < 5 then some (.error ())
  else do
    let b0 ← hash.get? 0
    let b1 ← hash.get? 1
    let b2 ← hash.get? 2
    let header := b0 ||| (b1 <<< 8) ||| (b2 <<< 16)
    let l : ℚ := ((header &&& 63 : ℕ) : ℚ) / 63
    let p : ℚ := (((header >>> 6) &&& 63 : ℕ) : ℚ) / 31.5 - 1
    let q : ℚ := (((header >>> 12) &&& 63 : ℕ) : ℚ) / 31.5 - 1
    let hasAlpha : Bool := decide (header >>> 23 ≠ 0)
    let a : ℚ ←
      if hasAlpha then (hash.get? 5).map fun b5 => ((b5 &&& 15 : ℕ) : ℚ) / 15
      else some 1
    let b := l - 2 / 3 * p
    let r := (3 * l - b + q) / 2
    let g := r - q
    some (.ok (clamp01 r, clamp01 g, clamp01 b, a))

/-! ### Specification views

Definitions phrased the way the spec describes the format; the theorems
relate them to the embedded source functions above. -/

/-- Nibble packing as the spec words it: two nibbles per byte, low
nibble first; a trailing odd nibble occupies the low half of a final
byte. -/
def packNibs : List ℕ → List ℕ
  | [] => []
  | [u] => [u]
  | u :: v :: rest => (u ||| (v <<< 4) % 256) :: packNibs rest

/-- The nibble stream offered by a decode state: the pending high
nibble (if any) followed by low-then-high nibbles of each byte. -/
def nibbles (st : Option ℕ × List ℕ) : List ℕ :=
  (match st.1 with | some b => [b] | none => []) ++
    st.2.flatMap fun b => [b &&& 15, b >>> 4]

/-- Number of nibbles available in a decode state. -/
def navail (st : Option ℕ × List ℕ) : ℕ :=
  (match st.1 with | some _ => 1 | none => 0) + 2 * st.2.length

/-- The decoder's dequantizer `(bits as f32 / 7.5 - 1.0) * scale`
(line 200). -/
def dequant (scale : ℚ) (bits : ℕ) : ℚ := ((bits : ℚ) / 7.5 - 1) * scale

/-- Running maximum of absolute values, starting at 0 (the shape of the
encoder's `scale` accumulation). -/
def maxAbs (l : List ℚ) : ℚ := l.foldl (fun s f => max |f| s) 0

/-- The raw (pre-normalization) AC coefficients of a channel, in scan
order. -/
def rawACs (c : ℚ → ℚ) (w h : ℕ) (ch : List ℚ) (nx ny : ℕ) : List ℚ :=
  (triangleD nx ny).map fun p => dctCoeff c w h ch p.1 p.2

/-- All AC lists of the encoder concatenated in emission order
(L, P, Q, then A if present). -/
def encACsAll (e : EncParts) : List ℚ :=
  e.l_ac ++ e.p_ac ++ e.q_ac ++ (if e.has_alpha then e.a_ac else [])

/-- The encoder's LPQA plane list (lines 36–51). -/
def encLPQA (rgba : List ℕ) : List (ℚ × ℚ × ℚ × ℚ) :=
  let px := chunks4 rgba
  let avg := avgRGB px
  px.map (lpqaPixel avg.1 avg.2.1 avg.2.2)

/-- A concrete stand-in for the cosine oracle, used to instantiate the
universally quantified theorems at concrete inputs. -/
def cosZero : ℚ → ℚ := fun _ => 0

/-- A second concrete cosine stand-in (constantly one); satisfies the
`|c x| ≤ 1` bound. -/
def cosOne : ℚ → ℚ := fun _ => 1

/-! ### Arithmetic helpers -/

theorem rustRound_of_nonneg {q : ℚ} (h : 0 ≤ q) : rustRound q = ⌊q + 1/2⌋ := by
  rw [rustRound, if_neg (not_lt.mpr h)]

theorem rustRound_le_nat {q : ℚ} {n : ℕ} (h : q ≤ n) : rustRound q ≤ n := by
  rw [rustRound]
  split
  · have : (0 : ℤ) ≤ ⌊-q + 1/2⌋ := by
      apply Int.floor_nonneg.mpr
      linarith
    omega
  · have h1 : q + 1/2 ≤ (n : ℚ) + 1/2 := by linarith
    have h2 : ⌊q + 1/2⌋ ≤ ⌊(n : ℚ) + 1/2⌋ := Int.floor_le_floor h1
    have h3 : ⌊(n : ℚ) + 1/2⌋ = (n : ℤ) + ⌊(1 : ℚ)/2⌋ := by
      rw [show ((n : ℚ)) = ((n : ℤ) : ℚ) by norm_cast, Int.floor_int_add]
    have h4 : ⌊(1 : ℚ)/2⌋ = 0 := by norm_num
    omega

theorem rustRound_nonneg {q : ℚ} (h : 0 ≤ q) : 0 ≤ rustRound q := by
  rw [rustRound_of_nonneg h]
  apply Int.floor_nonneg.mpr
  linarith

theorem toU32_round_le {q : ℚ} {n : ℕ} (h : q ≤ n) : toU32 (rustRound q) ≤ n := by
  have := rustRound_le_nat h
  have h2 : (rustRound q).toNat ≤ n := by omega
  exact le_trans (Nat.min_le_left _ _) h2

theorem toU16_round_le {q : ℚ} {n : ℕ} (h : q ≤ n) : toU16 (rustRound q) ≤ n := by
  have := rustRound_le_nat h
  have h2 : (rustRound q).toNat ≤ n := by omega
  exact le_trans (Nat.min_le_left _ _) h2

theorem toU8_le (z : ℤ) : toU8 z ≤ 255 := Nat.min_le_right _ _

theorem toUsize_round_le {q : ℚ} {n : ℕ} (h : q ≤ n) : toUsize (rustRound q) ≤ n := by
  have := rustRound_le_nat h
  have h2 : (rustRound q).toNat ≤ n := by omega
  exact le_trans (Nat.min_le_left _ _) h2

/-- Disjoint bit-or is addition: the low operand fits below the shift. -/
theorem lor_shift_add (a b k : ℕ) (h : a < 2 ^ k) :
    a ||| b <<< k = a + b * 2 ^ k := by
  calc a ||| b <<< k = 2 ^ k * b ||| a := by
        rw [Nat.lor_comm, Nat.shiftLeft_eq, Nat.mul_comm]
    _ = 2 ^ k * b + a := (Nat.mul_add_lt_is_or h b).symm
    _ = a + b * 2 ^ k := by ring

theorem and_mask (x k : ℕ) : x &&& (2 ^ k - 1) = x % 2 ^ k :=
  Nat.and_pow_two_sub_one_eq_mod x k

theorem shiftRight_div (x k : ℕ) : x >>> k = x / 2 ^ k :=
  Nat.shiftRight_eq_div_pow x k

/-- The `hash[i] & 0x80 != 0` test reads bit 7. -/
theorem and128_ne_zero_iff (b : ℕ) : b &&& 128 ≠ 0 ↔ b / 128 % 2 = 1 := by
  have h1 : b &&& 128 = (b.testBit 7).toNat * 2 ^ 7 := by
    have := Nat.and_two_pow b 7
    norm_num at this ⊢
    exact this
  have h2 : b.testBit 7 = decide (b / 2 ^ 7 % 2 = 1) := Nat.testBit_to_div_mod
  rw [h1, h2]
  cases hd : decide (b / 2 ^ 7 % 2 = 1) with
  | false =>
    have : ¬(b / 2 ^ 7 % 2 = 1) := of_decide_eq_false hd
    norm_num at this ⊢
    omega
  | true =>
    have : b / 2 ^ 7 % 2 = 1 := of_decide_eq_true hd
    norm_num at this ⊢
    omega

/-! ### List helpers -/

theorem takeWhile_all {α : Type} (p : α → Bool) :
    ∀ l : List α, (∀ a ∈ l, p a = true) → l.takeWhile p = l := by
  intro l
  induction l with
  | nil => intro; rfl
  | cons x xs ih =>
    intro hall
    rw [List.takeWhile_cons, hall x (by simp)]
    simp [ih fun a ha => hall a (by simp [ha])]

theorem mem_of_mem_takeWhile {α : Type} {p : α → Bool} {a : α} :
    ∀ {l : List α}, a ∈ l.takeWhile p → a ∈ l := by
  intro l
  induction l with
  | nil => intro h; exact absurd h (by simp)
  | cons x xs ih =>
    intro h
    rw [List.takeWhile_cons] at h
    by_cases hp : p x = true
    · rw [if_pos hp] at h
      rcases List.mem_cons.mp h with h | h
      · simp [h]
      · exact List.mem_cons_of_mem _ (ih h)
    · rw [if_neg hp] at h
      exact absurd h (by simp)

theorem updateLast_append (f : ℕ → ℕ) (x : ℕ) :
    ∀ l : List ℕ, updateLast f (l ++ [x]) = l ++ [f x] := by
  intro l
  induction l with
  | nil => rfl
  | cons a t ih =>
    cases t with
    | nil => rfl
    | cons b t' =>
      show updateLast f (a :: (b :: t' ++ [x])) = _
      rw [show (b :: t' ++ [x]) = b :: (t' ++ [x]) from rfl]
      simpa [updateLast] using ih

theorem chunks4_length : ∀ (l : List ℕ), (chunks4 l).length = l.length / 4 := by
  intro l
  induction l using chunks4.induct with
  | case1 r g b a rest ih => simp [chunks4, ih]; omega
  | case2 l h =>
    match l, h with
    | [], _ => simp [chunks4]
    | [_], _ => simp [chunks4]
    | [_, _], _ => simp [chunks4]
    | [_, _, _], _ => simp [chunks4]
    | _ :: _ :: _ :: _ :: rest, h => exact absurd rfl (h _ _ _ _ rest)

theorem mem_chunks4 {p : ℕ × ℕ × ℕ × ℕ} :
    ∀ {l : List ℕ}, p ∈ chunks4 l →
      p.1 ∈ l ∧ p.2.1 ∈ l ∧ p.2.2.1 ∈ l ∧ p.2.2.2 ∈ l := by
  intro l
  induction l using chunks4.induct with
  | case1 r g b a rest ih =>
    intro hmem
    rw [chunks4] at hmem
    rcases List.mem_cons.mp hmem with h | h
    · subst h; simp
    · have := ih h
      simp_all [List.mem_cons]
  | case2 l h =>
    intro hmem
    match l, h, hmem with
    | [], _, hmem => exact absurd hmem (by simp [chunks4])
    | [_], _, hmem => exact absurd hmem (by simp [chunks4])
    | [_, _], _, hmem => exact absurd hmem (by simp [chunks4])
    | [_, _, _], _, hmem => exact absurd hmem (by simp [chunks4])
    | _ :: _ :: _ :: _ :: rest, h, _ => exact absurd rfl (h _ _ _ _ rest)

/-! ### Triangular scan lemmas -/

theorem triangle_eq_cons {nx ny : ℕ} (hnx : 1 ≤ nx) (hny : 1 ≤ ny) :
    triangle nx ny = (0, 0) :: triangleD nx ny := by
  obtain ⟨k, rfl⟩ : ∃ k, nx = k + 1 := ⟨nx - 1, by omega⟩
  obtain ⟨m, rfl⟩ : ∃ m, ny = m + 1 := ⟨ny - 1, by omega⟩
  have hcond : ∀ a ∈ List.range (k + 1),
      (decide (a * (m + 1) < (k + 1) * (m + 1 - 0))) = true := by
    intro a ha
    rw [List.mem_range] at ha
    simp only [Nat.sub_zero, decide_eq_true_eq]
    exact mul_lt_mul_of_pos_right ha (by omega)
  have hifs : ∀ cy : ℕ, (if cy + 1 = 0 then 1 else 0) = 0 := fun cy => by simp
  have hif0 : (if (0 : ℕ) = 0 then 1 else 0) = 1 := by simp
  rw [triangle, triangleD, List.range_succ_eq_map m]
  simp only [List.flatMap_cons, List.flatMap_map, Function.comp, Nat.succ_eq_add_one,
    hifs, hif0, ite_true, if_true, List.drop_zero]
  have h0 : ((List.range (k + 1)).takeWhile fun cx =>
      decide (cx * (m + 1) < (k + 1) * (m + 1 - 0))) = List.range (k + 1) :=
    takeWhile_all _ _ hcond
  have h0d : (((List.range (k + 1)).drop 1).takeWhile
      fun cx => decide (cx * (m + 1) < (k + 1) * (m + 1 - 0))) =
      (List.range k).map Nat.succ := by
    rw [List.range_succ_eq_map k, List.drop_succ_cons, List.drop_zero]
    exact takeWhile_all _ _ fun a ha => hcond a (by
      rw [List.range_succ_eq_map k]
      exact List.mem_cons_of_mem _ ha)
  rw [h0, h0d]
  rw [List.range_succ_eq_map k]
  simp [List.map_cons]

theorem triangleD_pos {nx ny : ℕ} {p : ℕ × ℕ} (hp : p ∈ triangleD nx ny) :
    0 < p.1 ∨ 0 < p.2 := by
  rw [triangleD] at hp
  rcases List.mem_flatMap.mp hp with ⟨cy, _, hrow⟩
  rcases List.mem_map.mp hrow with ⟨cx, hcx, rfl⟩
  rcases Nat.eq_zero_or_pos cy with rfl | hpos
  · left
    have hcx' := mem_of_mem_takeWhile hcx
    rw [if_pos rfl] at hcx'
    rcases nx with _ | k
    · simp at hcx'
    · rw [List.range_succ_eq_map k, List.drop_succ_cons, List.drop_zero] at hcx'
      rcases List.mem_map.mp hcx' with ⟨j, _, rfl⟩
      exact Nat.succ_pos j
  · right
    exact hpos

/-! ### `encode_channel` characterization -/

theorem encFoldl (c : ℚ → ℚ) (w h : ℕ) (ch : List ℚ) :
    ∀ (l : List (ℕ × ℕ)), (∀ p ∈ l, 0 < p.1 ∨ 0 < p.2) →
    ∀ (d : ℚ) (acs : List ℚ) (s : ℚ),
    l.foldl (encStep c w h ch) (d, acs, s) =
      (d, acs ++ l.map (fun p => dctCoeff c w h ch p.1 p.2),
       (l.map (fun p => dctCoeff c w h ch p.1 p.2)).foldl (fun s f => max |f| s) s) := by
  intro l
  induction l with
  | nil => intro _ d acs s; simp
  | cons p t ih =>
    intro hpos d acs s
    have hp := hpos p (by simp)
    have hstep : encStep c w h ch (d, acs, s) p =
        (d, acs ++ [dctCoeff c w h ch p.1 p.2], max |dctCoeff c w h ch p.1 p.2| s) := by
      rw [encStep, if_pos hp]
    rw [List.foldl_cons, hstep, ih (fun q hq => hpos q (by simp [hq]))]
    simp

theorem foldl_max_le {M : ℚ} :
    ∀ (l : List ℚ) (s : ℚ), s ≤ M → (∀ f ∈ l, |f| ≤ M) →
      l.foldl (fun s f => max |f| s) s ≤ M := by
  intro l
  induction l with
  | nil => intro s hs _; simpa using hs
  | cons f t ih =>
    intro s hs hall
    rw [List.foldl_cons]
    exact ih _ (max_le (hall f (by simp)) hs) fun g hg => hall g (by simp [hg])

theorem le_foldl_max :
    ∀ (l : List ℚ) (s : ℚ), s ≤ l.foldl (fun s f => max |f| s) s := by
  intro l
  induction l with
  | nil => intro s; simp
  | cons f t ih =>
    intro s
    rw [List.foldl_cons]
    exact le_trans (le_max_right _ s) (ih (max |f| s))

theorem mem_le_foldl_max {f : ℚ} :
    ∀ (l : List ℚ) (s : ℚ), f ∈ l → |f| ≤ l.foldl (fun s f => max |f| s) s := by
  intro l
  induction l with
  | nil => intro s hf; exact absurd hf (by simp)
  | cons g t ih =>
    intro s hf
    rw [List.foldl_cons]
    rcases List.mem_cons.mp hf with rfl | hf'
    · exact le_trans (le_max_left _ s) (le_foldl_max t _)
    · exact ih _ hf'

theorem maxAbs_nonneg (l : List ℚ) : 0 ≤ maxAbs l := le_foldl_max l 0

theorem maxAbs_le {M : ℚ} (l : List ℚ) (hM : 0 ≤ M) (h : ∀ f ∈ l, |f| ≤ M) :
    maxAbs l ≤ M := foldl_max_le l 0 hM h

theorem mem_le_maxAbs {f : ℚ} {l : List ℚ} (h : f ∈ l) : |f| ≤ maxAbs l :=
  mem_le_foldl_max l 0 h

theorem encode_channel_eq (c : ℚ → ℚ) (w h : ℕ) (ch : List ℚ) {nx ny : ℕ}
    (hnx : 1 ≤ nx) (hny : 1 ≤ ny) :
    encode_channel c w h ch nx ny =
      (dctCoeff c w h ch 0 0,
       if 0 < maxAbs (rawACs c w h ch nx ny) then
         (rawACs c w h ch nx ny).map
           (fun a => 1/2 + 1/2 / maxAbs (rawACs c w h ch nx ny) * a)
       else rawACs c w h ch nx ny,
       maxAbs (rawACs c w h ch nx ny)) := by
  have hstep0 : encStep c w h ch (0, [], 0) (0, 0) = (dctCoeff c w h ch 0 0, [], 0) := by
    rw [encStep]
    simp
  rw [encode_channel, triangle_eq_cons hnx hny, List.foldl_cons, hstep0,
    encFoldl c w h ch _ (fun p hp => triangleD_pos hp) _ _ _]
  simp only [maxAbs, rawACs, List.nil_append]
  split_ifs <;> simp

/-! ### Nibble packing -/

theorem pushAC_append (acc : List ℕ × Bool) (l1 l2 : List ℚ) :
    pushAC (pushAC acc l1) l2 = pushAC acc (l1 ++ l2) := by
  rw [pushAC, pushAC, pushAC, List.foldl_append]

theorem pushAC_spec :
    ∀ (fs : List ℚ) (bytes : List ℕ),
      pushAC (bytes, false) fs =
        (bytes ++ packNibs (fs.map encNib), decide (fs.length % 2 = 1))
  | [], bytes => by simp [pushAC, packNibs]
  | [f], bytes => by
      simp [pushAC, pushNibble, packNibs, encNib]
  | f1 :: f2 :: rest, bytes => by
      have h1 : pushNibble (bytes, false) (encNib f1) = (bytes ++ [encNib f1], true) := by
        simp [pushNibble]
      have h2 : pushNibble (bytes ++ [encNib f1], true) (encNib f2) =
          (bytes ++ [encNib f1 ||| (encNib f2 <<< 4) % 256], false) := by
        simp [pushNibble, updateLast_append]
      have hstep : pushAC (bytes, false) (f1 :: f2 :: rest) =
          pushAC (bytes ++ [encNib f1 ||| (encNib f2 <<< 4) % 256], false) rest := by
        show pushAC (pushNibble (pushNibble (bytes, false) (encNib f1)) (encNib f2)) rest = _
        rw [h1, h2]
      rw [hstep, pushAC_spec rest _, List.map_cons, List.map_cons, packNibs]
      have hlen : (f1 :: f2 :: rest).length % 2 = rest.length % 2 := by
        simp only [List.length_cons]
        omega
      rw [hlen]
      simp

theorem packNibs_length : ∀ l : List ℕ, (packNibs l).length = (l.length + 1) / 2
  | [] => by simp [packNibs]
  | [u] => by simp [packNibs]
  | u :: v :: rest => by
      rw [packNibs, List.length_cons, packNibs_length rest]
      simp only [List.length_cons]
      omega

theorem packNibs_lt_256 :
    ∀ l : List ℕ, (∀ u ∈ l, u < 256) → ∀ b ∈ packNibs l, b < 256
  | [], _ => by simp [packNibs]
  | [u], hall => by
      intro b hb
      simp only [packNibs, List.mem_singleton] at hb
      subst hb
      exact hall _ (by simp)
  | u :: v :: rest, hall => by
      intro b hb
      rw [packNibs] at hb
      rcases List.mem_cons.mp hb with rfl | hb'
      · have h1 : u < 2 ^ 8 := hall u (by simp)
        have h2 : (v <<< 4) % 256 < 2 ^ 8 := Nat.mod_lt _ (by norm_num)
        exact Nat.or_lt_two_pow h1 h2
      · exact packNibs_lt_256 rest (fun x hx => hall x (by simp [hx])) b hb'

/-! ### Encoder output shape -/

theorem pushAC_nil (acc : List ℕ × Bool) : pushAC acc [] = acc := rfl

theorem encoder_shape (c : ℚ → ℚ) (w h : ℕ) (rgba : List ℕ) :
    rgba_to_thumb_hash c w h rgba =
      encHeaderBytes (encParts c w h rgba) ++
        packNibs ((encACsAll (encParts c w h rgba)).map encNib) := by
  have hif : ∀ (b : Bool) (s : List ℕ × Bool) (a : List ℚ),
      (if b then pushAC s a else s) = pushAC s (if b then a else []) := by
    intro b s a
    cases b <;> simp [pushAC_nil]
  show (if (encParts c w h rgba).has_alpha then
      pushAC (pushAC (pushAC (pushAC (encHeaderBytes (encParts c w h rgba), false)
        (encParts c w h rgba).l_ac) (encParts c w h rgba).p_ac)
        (encParts c w h rgba).q_ac) (encParts c w h rgba).a_ac
    else pushAC (pushAC (pushAC (encHeaderBytes (encParts c w h rgba), false)
        (encParts c w h rgba).l_ac) (encParts c w h rgba).p_ac)
        (encParts c w h rgba).q_ac).1 = _
  rw [hif, pushAC_append, pushAC_append, pushAC_append, pushAC_spec]
  simp [encACsAll]

/-! ### Claim C8 -/

/-- C8: for every input of length strictly less than 5, each of
`thumb_hash_to_rgba`, `thumb_hash_to_average_rgba` and
`thumb_hash_to_approximate_aspect_ratio` returns the TooShort error. -/
theorem C8_too_short (c : ℚ → ℚ) (hash : List ℕ) (hlen : hash.length < 5) :
    thumb_hash_to_approximate_aspect_ratio hash = .error () ∧
    thumb_hash_to_average_rgba hash = some (.error ()) ∧
    thumb_hash_to_rgba c hash = .error () := by
  have h1 : thumb_hash_to_approximate_aspect_ratio hash = .error () := by
    rw [thumb_hash_to_approximate_aspect_ratio, if_pos hlen]
  refine ⟨h1, ?_, ?_⟩
  · rw [thumb_hash_to_average_rgba, if_pos hlen]
  · unfold thumb_hash_to_rgba
    rw [h1]
    rfl

theorem C8_witness :
    ([] : List ℕ).length < 5 ∧
    (thumb_hash_to_approximate_aspect_ratio [] = .error () ∧
     thumb_hash_to_average_rgba [] = some (.error ()) ∧
     thumb_hash_to_rgba cosZero [] = .error ()) :=
  ⟨by decide, C8_too_short cosZero [] (by decide)⟩

/-! ### Claim C2 -/

/-- C2 (code bug): on the 5-byte input `[0, 0, 0x80, 0, 0]`, whose
alpha flag (bit 7 of byte 2) is set, `thumb_hash_to_rgba` returns the
TooShort error, but `thumb_hash_to_average_rgba` evaluates the
out-of-bounds index `hash[5]` — a panic (modeled as `none`) — instead
of returning the TooShort error the claim (and the function's own doc
comment) promises. -/
theorem C2_alpha_five_bytes (c : ℚ → ℚ) :
    thumb_hash_to_rgba c [0, 0, 128, 0, 0] = .error () ∧
    thumb_hash_to_average_rgba [0, 0, 128, 0, 0] = none :=
  ⟨rfl, rfl⟩

/-! ### Claim C3 -/

/-- C3 (amended): in the encoder's per-channel transform, when every
raw AC coefficient of a channel is zero the channel's scale is 0, and
the AC values are emitted unchanged (all 0, since the `scale > 0` check
skips the normalization), each quantizing to nibble 0. -/
theorem C3_zero_channel (c : ℚ → ℚ) (w h : ℕ) (ch : List ℚ) (nx ny : ℕ)
    (hnx : 1 ≤ nx) (hny : 1 ≤ ny)
    (hzero : ∀ v ∈ rawACs c w h ch nx ny, v = 0) :
    (encode_channel c w h ch nx ny).2.2 = 0 ∧
    (encode_channel c w h ch nx ny).2.1 = rawACs c w h ch nx ny ∧
    ∀ u ∈ ((encode_channel c w h ch nx ny).2.1).map encNib, u = 0 := by
  have hscale : maxAbs (rawACs c w h ch nx ny) = 0 := by
    apply le_antisymm
    · apply maxAbs_le _ le_rfl
      intro f hf
      rw [hzero f hf]
      simp
    · exact maxAbs_nonneg _
  rw [encode_channel_eq c w h ch hnx hny, hscale]
  simp only [lt_irrefl, if_false]
  refine ⟨trivial, trivial, ?_⟩
  intro u hu
  rcases List.mem_map.mp hu with ⟨v, hv, rfl⟩
  rw [hzero v hv]
  rw [encNib, show (15 * (0 : ℚ)) = 0 by norm_num, rustRound]
  norm_num [toU8]

unseal Rat.mul Rat.add Rat.sub Rat.inv Rat.ofScientific in
theorem C3_witness :
    ((1 : ℕ) ≤ 3 ∧ (1 : ℕ) ≤ 3 ∧ ∀ v ∈ rawACs cosOne 1 1 [0] 3 3, v = 0) ∧
    ((encode_channel cosOne 1 1 [0] 3 3).2.2 = 0 ∧
     (encode_channel cosOne 1 1 [0] 3 3).2.1 = rawACs cosOne 1 1 [0] 3 3 ∧
     ∀ u ∈ ((encode_channel cosOne 1 1 [0] 3 3).2.1).map encNib, u = 0) :=
  ⟨⟨by decide, by decide, by decide⟩,
   C3_zero_channel cosOne 1 1 [0] 3 3 (by decide) (by decide) (by decide)⟩

unseal Rat.mul Rat.add Rat.sub Rat.inv Rat.ofScientific in
/-- C3 counterexample: for the all-zero channel (`w = h = 1`,
`channel = [0]`, grid `3 × 3`) every raw AC coefficient is 0 and the
scale is 0, yet the emitted normalized AC values are 0 — not the
claimed neutral midpoint 0.5 — and they quantize to nibble 0, not the
claimed `round(15 * 0.5) = 8`. -/
theorem C3_counterexample :
    (∀ v ∈ rawACs cosOne 1 1 [0] 3 3, v = 0) ∧
    encode_channel cosOne 1 1 [0] 3 3 = (0, [0, 0, 0, 0, 0], 0) ∧
    ((encode_channel cosOne 1 1 [0] 3 3).2.1).map encNib = [0, 0, 0, 0, 0] ∧
    ¬((encode_channel cosOne 1 1 [0] 3 3).2.1 = List.replicate 5 (1/2 : ℚ)) ∧
    ¬(((encode_channel cosOne 1 1 [0] 3 3).2.1).map encNib = List.replicate 5 8) := by
  decide

/-! ### Claim C1 -/

/-- C1: for every valid encoder input, the hash is exactly the 5-byte
header, one extra byte iff the alpha flag is set, then the quantized
AC coefficients (`round(15 * value)` each) packed two per byte, low
nibble first, in channel order L, P, Q, A; the total length is
`5 + (1 if has_alpha) + ⌈total_AC_count / 2⌉` (also when all AC values
are zero, since the AC lists are always emitted). -/
theorem C1_hash_layout (c : ℚ → ℚ) (w h : ℕ) (rgba : List ℕ)
    (hw : w ≤ 100) (hh : h ≤ 100) (hlen : rgba.length = w * h * 4) :
    rgba_to_thumb_hash c w h rgba =
      encHeaderBytes (encParts c w h rgba) ++
        packNibs ((encACsAll (encParts c w h rgba)).map encNib) ∧
    (encHeaderBytes (encParts c w h rgba)).length =
      5 + (if hasAlphaFlag w h rgba then 1 else 0) ∧
    (rgba_to_thumb_hash c w h rgba).length =
      5 + (if hasAlphaFlag w h rgba then 1 else 0) +
        ((encACsAll (encParts c w h rgba)).length + 1) / 2 := by
  have hflag : (encParts c w h rgba).has_alpha = hasAlphaFlag w h rgba := rfl
  have hhb : (encHeaderBytes (encParts c w h rgba)).length =
      5 + (if hasAlphaFlag w h rgba then 1 else 0) := by
    rw [encHeaderBytes, ← hflag]
    cases (encParts c w h rgba).has_alpha <;> simp
  refine ⟨encoder_shape c w h rgba, hhb, ?_⟩
  rw [encoder_shape c w h rgba, List.length_append, hhb, packNibs_length,
    List.length_map]

theorem C1_witness :
    ((1 : ℕ) ≤ 100 ∧ (1 : ℕ) ≤ 100 ∧
      ([10, 20, 30, 255] : List ℕ).length = 1 * 1 * 4) ∧
    (rgba_to_thumb_hash cosZero 1 1 [10, 20, 30, 255] =
      encHeaderBytes (encParts cosZero 1 1 [10, 20, 30, 255]) ++
        packNibs ((encACsAll (encParts cosZero 1 1 [10, 20, 30, 255])).map encNib) ∧
    (encHeaderBytes (encParts cosZero 1 1 [10, 20, 30, 255])).length =
      5 + (if hasAlphaFlag 1 1 [10, 20, 30, 255] then 1 else 0) ∧
    (rgba_to_thumb_hash cosZero 1 1 [10, 20, 30, 255]).length =
      5 + (if hasAlphaFlag 1 1 [10, 20, 30, 255] then 1 else 0) +
        ((encACsAll (encParts cosZero 1 1 [10, 20, 30, 255])).length + 1) / 2) :=
  ⟨⟨by decide, by decide, by decide⟩,
   C1_hash_layout cosZero 1 1 [10, 20, 30, 255] (by decide) (by decide) (by decide)⟩

/-! ### Decoder output dimensions -/

theorem except_bind_ok {α β : Type} (a : α) (f : α → Except Unit β) :
    (Except.ok a >>= f) = f a := rfl

theorem except_bind_err {α β : Type} (f : α → Except Unit β) :
    ((Except.error () : Except Unit α) >>= f) = Except.error () := rfl

theorem renderPixel_length (c : ℚ → ℚ) (lx ly : ℕ) (hA : Bool)
    (ld pd qd ad : ℚ) (la pa qa aa : List ℚ) (w h x y : ℕ) :
    (renderPixel c lx ly hA ld pd qd ad la pa qa aa w h x y).length = 4 := by
  rw [renderPixel]
  rfl

theorem renderImage_length (c : ℚ → ℚ) (lx ly : ℕ) (hA : Bool)
    (ld pd qd ad : ℚ) (la pa qa aa : List ℚ) (w h : ℕ) :
    (renderImage c lx ly hA ld pd qd ad la pa qa aa w h).length = 4 * w * h := by
  rw [renderImage, List.length_flatMap]
  simp only [Function.comp_def]
  have hinner : ∀ y, ((List.range w).flatMap fun x =>
      renderPixel c lx ly hA ld pd qd ad la pa qa aa w h x y).length = w * 4 := by
    intro y
    rw [List.length_flatMap]
    simp only [Function.comp_def]
    have hmap : ((List.range w).map fun x =>
        (renderPixel c lx ly hA ld pd qd ad la pa qa aa w h x y).length) =
        (List.range w).map fun _ => 4 :=
      List.map_congr_left fun x _ => renderPixel_length ..
    rw [hmap, List.map_const', List.sum_replicate, List.length_range, smul_eq_mul]
  have hmap2 : ((List.range h).map fun y => ((List.range w).flatMap fun x =>
      renderPixel c lx ly hA ld pd qd ad la pa qa aa w h x y).length) =
      (List.range h).map fun _ => w * 4 :=
    List.map_congr_left fun y _ => hinner y
  rw [hmap2, List.map_const', List.sum_replicate, List.length_range, smul_eq_mul]
  ring

theorem recip32_le (r : F32x) (hgt : gtOne r = true) : recip32 r ≤ (32 : ℕ) := by
  cases r with
  | fin q =>
    have hq : 1 < q := by simpa [gtOne] using hgt
    have hq0 : 0 < q := by linarith
    rw [recip32, div_le_iff₀ hq0]
    push_cast
    nlinarith
  | posInf => rw [recip32]; norm_num
  | nan => rw [recip32]; norm_num

theorem times32_le (r : F32x) (hgt : gtOne r = false) : times32 r ≤ (32 : ℕ) := by
  cases r with
  | fin q =>
    have hq : ¬(1 < q) := by simpa [gtOne] using hgt
    push_neg at hq
    rw [times32]
    push_cast
    nlinarith
  | posInf => rw [times32]; norm_num
  | nan => rw [times32]; norm_num

/-- Whatever the ratio, the long side of the decoded image is 32. -/
theorem dimsFromRatio_max (r : F32x) :
    max (dimsFromRatio r).1 (dimsFromRatio r).2 = 32 := by
  rw [dimsFromRatio]
  cases hgt : gtOne r with
  | true =>
    rw [if_pos rfl]
    have : toUsize (rustRound (recip32 r)) ≤ 32 := toUsize_round_le (recip32_le r hgt)
    simp only []
    omega
  | false =>
    rw [if_neg (by simp)]
    have : toUsize (rustRound (times32 r)) ≤ 32 := toUsize_round_le (times32_le r hgt)
    simp only []
    omega

/-- Full dissection of a successful decode: the aspect ratio, parsed
header, the four channel reads in order with their scales, the output
dimensions, and the rendered buffer. -/
theorem decode_ok_full (c : ℚ → ℚ) (hash : List ℕ) (w h : ℕ) (out : List ℕ)
    (hok : thumb_hash_to_rgba c hash = .ok (w, h, out)) :
    ∃ r hd l_ac st1 p_ac st2 q_ac st3 a_ac stf,
      thumb_hash_to_approximate_aspect_ratio hash = .ok r ∧
      parseHeader hash = .ok hd ∧
      decode_channel hd.lx hd.ly hd.l_scale (none, hd.rest) = .ok (l_ac, st1) ∧
      decode_channel 3 3 (hd.p_scale * 1.25) st1 = .ok (p_ac, st2) ∧
      decode_channel 3 3 (hd.q_scale * 1.25) st2 = .ok (q_ac, st3) ∧
      ((hd.hasAlpha = true ∧ decode_channel 5 5 hd.a_scale st3 = .ok (a_ac, stf)) ∨
       (hd.hasAlpha = false ∧ a_ac = [] ∧ stf = st3)) ∧
      (w, h) = dimsFromRatio r ∧
      out = renderImage c hd.lx hd.ly hd.hasAlpha hd.l_dc hd.p_dc hd.q_dc hd.a_dc
        l_ac p_ac q_ac a_ac w h := by
  unfold thumb_hash_to_rgba at hok
  cases hasp : thumb_hash_to_approximate_aspect_ratio hash with
  | error e =>
    rw [hasp] at hok
    cases e
    rw [except_bind_err] at hok
    exact absurd hok (by simp)
  | ok ratio =>
    rw [hasp, except_bind_ok] at hok
    cases hhd : parseHeader hash with
    | error e =>
      rw [hhd] at hok
      cases e
      rw [except_bind_err] at hok
      exact absurd hok (by simp)
    | ok hd =>
      rw [hhd, except_bind_ok] at hok
      cases hch1 : decode_channel hd.lx hd.ly hd.l_scale (none, hd.rest) with
      | error e =>
        rw [hch1] at hok
        cases e
        rw [except_bind_err] at hok
        exact absurd hok (by simp)
      | ok r1 =>
        obtain ⟨l_ac, st1⟩ := r1
        rw [hch1, except_bind_ok] at hok
        dsimp only at hok
        cases hch2 : decode_channel 3 3 (hd.p_scale * 1.25) st1 with
        | error e =>
          rw [hch2] at hok
          cases e
          rw [except_bind_err] at hok
          exact absurd hok (by simp)
        | ok r2 =>
          obtain ⟨p_ac, st2⟩ := r2
          rw [hch2, except_bind_ok] at hok
          dsimp only at hok
          cases hch3 : decode_channel 3 3 (hd.q_scale * 1.25) st2 with
          | error e =>
            rw [hch3] at hok
            cases e
            rw [except_bind_err] at hok
            exact absurd hok (by simp)
          | ok r3 =>
            obtain ⟨q_ac, st3⟩ := r3
            rw [hch3, except_bind_ok] at hok
            dsimp only at hok
            rcases hdim : dimsFromRatio ratio with ⟨dw, dh⟩
            cases halpha : hd.hasAlpha with
            | true =>
              rw [halpha, if_pos rfl] at hok
              cases hch4 : decode_channel 5 5 hd.a_scale st3 with
              | error e =>
                rw [hch4] at hok
                cases e
                rw [except_bind_err] at hok
                exact absurd hok (by simp)
              | ok r4 =>
                obtain ⟨a_ac, st4⟩ := r4
                rw [hch4, except_bind_ok] at hok
                dsimp only at hok
                rw [hdim] at hok
                simp only [Except.ok.injEq, Prod.mk.injEq] at hok
                obtain ⟨hw, hh, hout⟩ := hok
                subst hw
                subst hh
                subst hout
                exact ⟨ratio, hd, l_ac, st1, p_ac, st2, q_ac, st3, a_ac, st4,
                  rfl, rfl, hch1, hch2, hch3, Or.inl ⟨halpha, hch4⟩,
                  by rw [hdim], by rw [halpha]⟩
            | false =>
              rw [halpha, if_neg (by simp), except_bind_ok] at hok
              dsimp only at hok
              rw [hdim] at hok
              simp only [Except.ok.injEq, Prod.mk.injEq] at hok
              obtain ⟨hw, hh, hout⟩ := hok
              subst hw
              subst hh
              subst hout
              exact ⟨ratio, hd, l_ac, st1, p_ac, st2, q_ac, st3, [], st3,
                rfl, rfl, hch1, hch2, hch3, Or.inr ⟨halpha, rfl, rfl⟩,
                by rw [hdim], by rw [halpha]⟩

/-- Projection of `decode_ok_full` used by the dimension claims. -/
theorem decode_ok_parts (c : ℚ → ℚ) (hash : List ℕ) (w h : ℕ) (out : List ℕ)
    (hok : thumb_hash_to_rgba c hash = .ok (w, h, out)) :
    ∃ r, thumb_hash_to_approximate_aspect_ratio hash = .ok r ∧
      (w, h) = dimsFromRatio r ∧ out.length = 4 * w * h := by
  obtain ⟨r, hd, l_ac, st1, p_ac, st2, q_ac, st3, a_ac, stf,
    hasp, _, _, _, _, _, hdims, hout⟩ := decode_ok_full c hash w h out hok
  exact ⟨r, hasp, hdims, by rw [hout]; exact renderImage_length ..⟩

/-! ### Claim C10 -/

/-- C10: whenever `thumb_hash_to_rgba` returns `Ok((w, h, rgba))` — on
any byte string, including crafted ones — the long side is
`max w h = 32` and the pixel buffer has exactly `4 * w * h` bytes; a
header with a zero 3-bit limit field yields a zero-length short side
rather than an error (the witness decodes such a hash, with the
landscape bit set and limit field 0, to `Ok((32, 0, []))`). -/
theorem C10_output_shape (c : ℚ → ℚ) (hash : List ℕ) (w h : ℕ) (out : List ℕ)
    (hok : thumb_hash_to_rgba c hash = .ok (w, h, out)) :
    max w h = 32 ∧ out.length = 4 * w * h := by
  obtain ⟨r, _, hdims, hlen⟩ := decode_ok_parts c hash w h out hok
  refine ⟨?_, hlen⟩
  have h1 : w = (dimsFromRatio r).1 := by rw [← hdims]
  have h2 : h = (dimsFromRatio r).2 := by rw [← hdims]
  rw [h1, h2]
  exact dimsFromRatio_max r

unseal Rat.mul Rat.add Rat.sub Rat.inv Rat.ofScientific in
theorem C10_witness :
    thumb_hash_to_rgba cosZero
        [0, 0, 0, 0, 128, 0, 0, 0, 0, 0, 0, 0, 0, 0, 0, 0, 0] =
      .ok (32, 0, []) ∧
    (max 32 0 = 32 ∧ ([] : List ℕ).length = 4 * 32 * 0) :=
  ⟨rfl, C10_output_shape cosZero
    [0, 0, 0, 0, 128, 0, 0, 0, 0, 0, 0, 0, 0, 0, 0, 0, 0] 32 0 [] rfl⟩

/-! ### Claim C5 -/

/-- C5: when `thumb_hash_to_rgba` succeeds, its output dimensions are
derived from the ratio `r` returned by
`thumb_hash_to_approximate_aspect_ratio` on the same bytes: if `r > 1`
the output is `(32, round(32 / r))`, otherwise `(round(32 * r), 32)`;
in particular the long side is 32. -/
theorem C5_dims_from_aspect_ratio (c : ℚ → ℚ) (hash : List ℕ) (w h : ℕ)
    (out : List ℕ) (hok : thumb_hash_to_rgba c hash = .ok (w, h, out)) :
    ∃ r, thumb_hash_to_approximate_aspect_ratio hash = .ok r ∧
      (gtOne r = true → w = 32 ∧ h = toUsize (rustRound (recip32 r))) ∧
      (gtOne r = false → w = toUsize (rustRound (times32 r)) ∧ h = 32) ∧
      max w h = 32 := by
  obtain ⟨r, hasp, hdims, _⟩ := decode_ok_parts c hash w h out hok
  have hmax : max w h = 32 := by
    have h1 : w = (dimsFromRatio r).1 := by rw [← hdims]
    have h2 : h = (dimsFromRatio r).2 := by rw [← hdims]
    rw [h1, h2]
    exact dimsFromRatio_max r
  refine ⟨r, hasp, ?_, ?_, hmax⟩
  · intro hgt
    rw [dimsFromRatio, if_pos hgt] at hdims
    exact ⟨congrArg Prod.fst hdims, congrArg Prod.snd hdims⟩
  · intro hgt
    rw [dimsFromRatio, if_neg (by simp [hgt])] at hdims
    exact ⟨congrArg Prod.fst hdims, congrArg Prod.snd hdims⟩

unseal Rat.mul Rat.add Rat.sub Rat.inv Rat.ofScientific in
theorem C5_witness :
    thumb_hash_to_rgba cosZero
        [0, 0, 0, 0, 0, 0, 0, 0, 0, 0, 0, 0, 0, 0, 0, 0, 0] =
      .ok (0, 32, []) ∧
    (∃ r, thumb_hash_to_approximate_aspect_ratio
        [0, 0, 0, 0, 0, 0, 0, 0, 0, 0, 0, 0, 0, 0, 0, 0, 0] = .ok r ∧
      (gtOne r = true → (0 : ℕ) = 32 ∧ (32 : ℕ) = toUsize (rustRound (recip32 r))) ∧
      (gtOne r = false → (0 : ℕ) = toUsize (rustRound (times32 r)) ∧ (32 : ℕ) = 32) ∧
      max (0 : ℕ) 32 = 32) :=
  ⟨rfl, C5_dims_from_aspect_ratio cosZero
    [0, 0, 0, 0, 0, 0, 0, 0, 0, 0, 0, 0, 0, 0, 0, 0, 0] 0 32 [] rfl⟩

/-! ### Claim C6 -/

/-- The grid-dimension formula, characterized over `ℕ`:
`round(l*d/m)` half away from zero equals `(2*l*d + m) / (2*m)` in
integer division. -/
theorem lGridDim_nat {l d m : ℕ} (hm : 0 < m) (hdm : d ≤ m) (hl : l ≤ 7) :
    lGridDim l d m = max ((2 * (l * d) + m) / (2 * m)) 1 := by
  rw [lGridDim]
  have h0 : (0 : ℚ) ≤ ((l * d : ℕ) : ℚ) / (m : ℚ) := by positivity
  rw [rustRound_of_nonneg h0]
  have hmq : ((m : ℕ) : ℚ) ≠ 0 := by
    push_cast
    exact_mod_cast Nat.pos_iff_ne_zero.mp hm
  have harg : ((l * d : ℕ) : ℚ) / (m : ℚ) + 1/2 =
      ((2 * (l * d) + m : ℕ) : ℚ) / ((2 * m : ℕ) : ℚ) := by
    push_cast
    field_simp
    ring
  rw [harg, Rat.floor_natCast_div_natCast]
  have hle : (2 * (l * d) + m) / (2 * m) ≤ 8 := by
    have h1 : 2 * (l * d) + m ≤ (2 * m) * 8 := by nlinarith
    have h2 : (2 * (l * d) + m) / (2 * m) ≤ ((2 * m) * 8) / (2 * m) :=
      Nat.div_le_div_right h1
    rw [Nat.mul_div_cancel_left _ (by omega : 0 < 2 * m)] at h2
    exact h2
  rw [toUsize, ← Int.ofNat_ediv, Int.toNat_natCast]
  have hmin : min ((2 * (l * d) + m) / (2 * m)) (2 ^ 64 - 1) =
      (2 * (l * d) + m) / (2 * m) := by
    apply min_eq_left
    omega
  rw [hmin]

/-- On the long axis (`d = m`) the grid gets exactly `l` cells. -/
theorem lGridDim_long {l m : ℕ} (hm : 0 < m) (hl1 : 1 ≤ l) (hl : l ≤ 7) :
    lGridDim l m m = l := by
  rw [lGridDim_nat hm le_rfl hl]
  have heq : 2 * (l * m) + m = (2 * m) * l + m := by ring
  rw [heq, Nat.mul_add_div (by omega : 0 < 2 * m),
    Nat.div_eq_of_lt (show m < 2 * m by omega)]
  omega

theorem lGridDim_ge_one (l d m : ℕ) : 1 ≤ lGridDim l d m := le_max_right _ _

theorem lGridDim_le {l d m : ℕ} (hm : 0 < m) (hdm : d ≤ m) (hl1 : 1 ≤ l)
    (hl : l ≤ 7) : lGridDim l d m ≤ l := by
  rw [lGridDim_nat hm hdm hl]
  have h1 : 2 * (l * d) + m ≤ (2 * m) * l + m := by nlinarith
  have h2 : (2 * (l * d) + m) / (2 * m) ≤ ((2 * m) * l + m) / (2 * m) :=
    Nat.div_le_div_right h1
  rw [Nat.mul_add_div (by omega : 0 < 2 * m),
    Nat.div_eq_of_lt (show m < 2 * m by omega)] at h2
  omega

/-- The decoder clamps both grid dimensions to at least 3
(lines 176–177). -/
theorem parseHeader_clamp (hash : List ℕ) (hd : DecHeader)
    (hok : parseHeader hash = .ok hd) : 3 ≤ hd.lx ∧ 3 ≤ hd.ly := by
  unfold parseHeader at hok
  cases hb0 : read_byte hash with
  | error e =>
    cases e
    rw [hb0, except_bind_err] at hok
    exact absurd hok (by simp)
  | ok r0 =>
  obtain ⟨b0, h1⟩ := r0
  rw [hb0, except_bind_ok] at hok
  dsimp only at hok
  cases hb1 : read_byte h1 with
  | error e =>
    cases e
    rw [hb1, except_bind_err] at hok
    exact absurd hok (by simp)
  | ok r1 =>
  obtain ⟨b1, h2⟩ := r1
  rw [hb1, except_bind_ok] at hok
  dsimp only at hok
  cases hb2 : read_byte h2 with
  | error e =>
    cases e
    rw [hb2, except_bind_err] at hok
    exact absurd hok (by simp)
  | ok r2 =>
  obtain ⟨b2, h3⟩ := r2
  rw [hb2, except_bind_ok] at hok
  dsimp only at hok
  cases hb3 : read_byte h3 with
  | error e =>
    cases e
    rw [hb3, except_bind_err] at hok
    exact absurd hok (by simp)
  | ok r3 =>
  obtain ⟨b3, h4⟩ := r3
  rw [hb3, except_bind_ok] at hok
  dsimp only at hok
  cases hb4 : read_byte h4 with
  | error e =>
    cases e
    rw [hb4, except_bind_err] at hok
    exact absurd hok (by simp)
  | ok r4 =>
  obtain ⟨b4, h5⟩ := r4
  rw [hb4, except_bind_ok] at hok
  dsimp only at hok
  by_cases halpha : (decide ((b0 ||| b1 <<< 8 ||| b2 <<< 16) >>> 23 ≠ 0) : Bool) = true
  · rw [if_pos halpha] at hok
    cases hb5 : read_byte h5 with
    | error e =>
      cases e
      rw [hb5, except_bind_err] at hok
      exact absurd hok (by simp)
    | ok r5 =>
      obtain ⟨b5, h6⟩ := r5
      rw [hb5, except_bind_ok] at hok
      dsimp only at hok
      simp only [Except.ok.injEq] at hok
      subst hok
      exact ⟨le_max_left _ _, le_max_left _ _⟩
  · rw [if_neg halpha] at hok
    simp only [Except.ok.injEq] at hok
    subst hok
    exact ⟨le_max_left _ _, le_max_left _ _⟩

/-- C6: the encoder chooses `lx = max(1, round(l_limit*w/max(w,h)))`
(and symmetrically `ly`), with `l_limit` 7 when there is no alpha and 5
when there is; the rounding is characterized exactly over `ℕ`; the long
axis gets exactly `l_limit` cells and both dimensions are at least 1;
and the decoder clamps both parsed grid dimensions to at least 3. -/
theorem C6_grid_choice (c : ℚ → ℚ) (w h : ℕ) (rgba : List ℕ)
    (hw : w ≤ 100) (hh : h ≤ 100) (hlen : rgba.length = w * h * 4)
    (hpos : 0 < max w h) :
    ((encParts c w h rgba).lx =
        lGridDim (if hasAlphaFlag w h rgba then 5 else 7) w (max w h) ∧
     (encParts c w h rgba).ly =
        lGridDim (if hasAlphaFlag w h rgba then 5 else 7) h (max w h)) ∧
    ((encParts c w h rgba).lx =
        max ((2 * ((if hasAlphaFlag w h rgba then 5 else 7) * w) + max w h) /
          (2 * max w h)) 1) ∧
    (h ≤ w → (encParts c w h rgba).lx = (if hasAlphaFlag w h rgba then 5 else 7)) ∧
    (w ≤ h → (encParts c w h rgba).ly = (if hasAlphaFlag w h rgba then 5 else 7)) ∧
    1 ≤ (encParts c w h rgba).lx ∧ 1 ≤ (encParts c w h rgba).ly ∧
    (∀ hash hd, parseHeader hash = .ok hd → 3 ≤ hd.lx ∧ 3 ≤ hd.ly) := by
  have hll1 : 1 ≤ (if hasAlphaFlag w h rgba then 5 else 7) := by split_ifs <;> omega
  have hll7 : (if hasAlphaFlag w h rgba then 5 else 7) ≤ 7 := by split_ifs <;> omega
  refine ⟨⟨rfl, rfl⟩, ?_, ?_, ?_, ?_, ?_, ?_⟩
  · show lGridDim _ w (max w h) = _
    exact lGridDim_nat hpos (le_max_left w h) hll7
  · intro hhw
    show lGridDim _ w (max w h) = _
    rw [max_eq_left hhw]
    exact lGridDim_long (by omega) hll1 hll7
  · intro hwh
    show lGridDim _ h (max w h) = _
    rw [max_eq_right hwh]
    exact lGridDim_long (by omega) hll1 hll7
  · exact lGridDim_ge_one _ _ _
  · exact lGridDim_ge_one _ _ _
  · exact parseHeader_clamp

unseal Rat.mul Rat.add Rat.sub Rat.inv Rat.ofScientific in
theorem C6_witness :
    ((2 : ℕ) ≤ 100 ∧ (1 : ℕ) ≤ 100 ∧
      ([10, 20, 30, 255, 40, 50, 60, 255] : List ℕ).length = 2 * 1 * 4 ∧
      0 < max 2 1) ∧
    (((encParts cosOne 2 1 [10, 20, 30, 255, 40, 50, 60, 255]).lx =
        lGridDim (if hasAlphaFlag 2 1 [10, 20, 30, 255, 40, 50, 60, 255] then 5 else 7)
          2 (max 2 1) ∧
      (encParts cosOne 2 1 [10, 20, 30, 255, 40, 50, 60, 255]).ly =
        lGridDim (if hasAlphaFlag 2 1 [10, 20, 30, 255, 40, 50, 60, 255] then 5 else 7)
          1 (max 2 1)) ∧
    ((encParts cosOne 2 1 [10, 20, 30, 255, 40, 50, 60, 255]).lx =
        max ((2 * ((if hasAlphaFlag 2 1 [10, 20, 30, 255, 40, 50, 60, 255] then 5 else 7) * 2) +
          max 2 1) / (2 * max 2 1)) 1) ∧
    ((1 : ℕ) ≤ 2 →
      (encParts cosOne 2 1 [10, 20, 30, 255, 40, 50, 60, 255]).lx =
        (if hasAlphaFlag 2 1 [10, 20, 30, 255, 40, 50, 60, 255] then 5 else 7)) ∧
    ((2 : ℕ) ≤ 1 →
      (encParts cosOne 2 1 [10, 20, 30, 255, 40, 50, 60, 255]).ly =
        (if hasAlphaFlag 2 1 [10, 20, 30, 255, 40, 50, 60, 255] then 5 else 7)) ∧
    1 ≤ (encParts cosOne 2 1 [10, 20, 30, 255, 40, 50, 60, 255]).lx ∧
    1 ≤ (encParts cosOne 2 1 [10, 20, 30, 255, 40, 50, 60, 255]).ly ∧
    (∀ hash hd, parseHeader hash = .ok hd → 3 ≤ hd.lx ∧ 3 ≤ hd.ly)) :=
  ⟨⟨by decide, by decide, by decide, by decide⟩,
   C6_grid_choice cosOne 2 1 [10, 20, 30, 255, 40, 50, 60, 255]
     (by decide) (by decide) (by decide) (by decide)⟩

/-! ### Claim C4 -/

theorem sumAlpha_le (px : List (ℕ × ℕ × ℕ × ℕ))
    (hb : ∀ p ∈ px, p.2.2.2 ≤ 255) : sumAlpha px ≤ (px.length : ℚ) := by
  induction px with
  | nil => simp [sumAlpha]
  | cons p t ih =>
    have h1 : (p.2.2.2 : ℚ) / 255 ≤ 1 := by
      rw [div_le_one (by norm_num)]
      exact_mod_cast hb p (by simp)
    have h2 := ih fun q hq => hb q (by simp [hq])
    rw [sumAlpha, List.map_cons, List.sum_cons]
    rw [sumAlpha] at h2
    push_cast [List.length_cons]
    linarith

theorem sumAlpha_lt_iff (px : List (ℕ × ℕ × ℕ × ℕ))
    (hb : ∀ p ∈ px, p.2.2.2 ≤ 255) :
    sumAlpha px < (px.length : ℚ) ↔ ∃ p ∈ px, p.2.2.2 < 255 := by
  induction px with
  | nil => simp [sumAlpha]
  | cons p t ih =>
    have hbt : ∀ q ∈ t, q.2.2.2 ≤ 255 := fun q hq => hb q (by simp [hq])
    have hsplit : sumAlpha (p :: t) = (p.2.2.2 : ℚ) / 255 + sumAlpha t := by
      rw [sumAlpha, List.map_cons, List.sum_cons, sumAlpha]
    constructor
    · intro hlt
      by_contra hno
      push_neg at hno
      have hp : p.2.2.2 = 255 := le_antisymm (hb p (by simp)) (hno p (by simp))
      have hnot : ¬(sumAlpha t < (t.length : ℚ)) := by
        rw [ih hbt]
        push_neg
        intro q hq
        exact hno q (by simp [hq])
      push_neg at hnot
      rw [hsplit, hp] at hlt
      push_cast [List.length_cons] at hlt
      norm_num at hlt
      linarith
    · rintro ⟨q, hq, hqlt⟩
      rcases List.mem_cons.mp hq with rfl | hq'
      · have h1 : (q.2.2.2 : ℚ) / 255 < 1 := by
          rw [div_lt_one (by norm_num)]
          exact_mod_cast hqlt
        have h2 := sumAlpha_le t hbt
        rw [hsplit]
        push_cast [List.length_cons]
        linarith
      · have h1 : (p.2.2.2 : ℚ) / 255 ≤ 1 := by
          rw [div_le_one (by norm_num)]
          exact_mod_cast hb p (by simp)
        have h2 : sumAlpha t < (t.length : ℚ) := (ih hbt).mpr ⟨q, hq', hqlt⟩
        rw [hsplit]
        push_cast [List.length_cons]
        linarith

/-- C4: the `has_alpha` flag of the encoder is set iff the image has a
pixel with alpha < 255, equivalently iff the total summed alpha (each
pixel contributing `alpha / 255`) is strictly below `w * h`; the
`encParts` record stores exactly this flag (which lands in header bit
23). -/
theorem C4_has_alpha_iff (c : ℚ → ℚ) (w h : ℕ) (rgba : List ℕ)
    (hw : w ≤ 100) (hh : h ≤ 100) (hlen : rgba.length = w * h * 4)
    (hbytes : ∀ b ∈ rgba, b < 256) :
    (hasAlphaFlag w h rgba = true ↔ ∃ p ∈ chunks4 rgba, p.2.2.2 < 255) ∧
    (hasAlphaFlag w h rgba = true ↔
      sumAlpha (chunks4 rgba) < ((w * h : ℕ) : ℚ)) ∧
    (encParts c w h rgba).has_alpha = hasAlphaFlag w h rgba := by
  have hcount : (chunks4 rgba).length = w * h := by
    rw [chunks4_length, hlen]
    omega
  have hbpx : ∀ p ∈ chunks4 rgba, p.2.2.2 ≤ 255 := fun p hp =>
    Nat.lt_succ_iff.mp (hbytes p.2.2.2 (mem_chunks4 hp).2.2.2)
  have hflag : hasAlphaFlag w h rgba = true ↔
      sumAlpha (chunks4 rgba) < ((w * h : ℕ) : ℚ) := by
    rw [hasAlphaFlag, decide_eq_true_eq]
  refine ⟨?_, hflag, rfl⟩
  rw [hflag, ← hcount]
  exact sumAlpha_lt_iff (chunks4 rgba) hbpx

unseal Rat.mul Rat.add Rat.sub Rat.inv Rat.ofScientific in
theorem C4_witness :
    ((1 : ℕ) ≤ 100 ∧ (1 : ℕ) ≤ 100 ∧
      ([0, 0, 0, 200] : List ℕ).length = 1 * 1 * 4 ∧
      ∀ b ∈ ([0, 0, 0, 200] : List ℕ), b < 256) ∧
    ((hasAlphaFlag 1 1 [0, 0, 0, 200] = true ↔
        ∃ p ∈ chunks4 [0, 0, 0, 200], p.2.2.2 < 255) ∧
     (hasAlphaFlag 1 1 [0, 0, 0, 200] = true ↔
        sumAlpha (chunks4 [0, 0, 0, 200]) < ((1 * 1 : ℕ) : ℚ)) ∧
     (encParts cosOne 1 1 [0, 0, 0, 200]).has_alpha =
        hasAlphaFlag 1 1 [0, 0, 0, 200]) :=
  ⟨⟨by decide, by decide, by decide, by decide⟩,
   C4_has_alpha_iff cosOne 1 1 [0, 0, 0, 200]
     (by decide) (by decide) (by decide) (by decide)⟩

/-! ### Claim C7 -/

theorem nibbles_some (b : ℕ) (bytes : List ℕ) :
    nibbles (some b, bytes) = b :: nibbles (none, bytes) := rfl

theorem nibbles_cons (b : ℕ) (bs : List ℕ) :
    nibbles (none, b :: bs) = (b &&& 15) :: nibbles (some (b >>> 4), bs) := rfl

/-- Every successful `decode_channel` run returns exactly the dequantized
prefix of the nibble stream, in stream order, and leaves the rest. -/
theorem decodeACList_spec (scale : ℚ) :
    ∀ (tri : List (ℕ × ℕ)) (st : Option ℕ × List ℕ) (acs : List ℚ)
      (st' : Option ℕ × List ℕ),
      decodeACList scale tri st = .ok (acs, st') →
      acs = ((nibbles st).take tri.length).map (dequant scale) ∧
      nibbles st' = (nibbles st).drop tri.length := by
  intro tri
  induction tri with
  | nil =>
    intro st acs st' hok
    simp only [decodeACList, Except.ok.injEq, Prod.mk.injEq] at hok
    obtain ⟨rfl, rfl⟩ := hok
    simp
  | cons p rest ih =>
    intro st acs st' hok
    obtain ⟨prev, bytes⟩ := st
    cases prev with
    | some b =>
      rw [decodeACList] at hok
      rw [show readNib (some b, bytes) = .ok (b, (none, bytes)) from rfl,
        except_bind_ok] at hok
      dsimp only at hok
      cases hrec : decodeACList scale rest (none, bytes) with
      | error e =>
        cases e
        rw [hrec, except_bind_err] at hok
        exact absurd hok (by simp)
      | ok r =>
        obtain ⟨acs0, st0⟩ := r
        rw [hrec, except_bind_ok] at hok
        dsimp only at hok
        simp only [Except.ok.injEq, Prod.mk.injEq] at hok
        obtain ⟨rfl, rfl⟩ := hok
        obtain ⟨hacs, hnib⟩ := ih (none, bytes) acs0 st0 hrec
        rw [nibbles_some]
        refine ⟨?_, ?_⟩
        · rw [List.length_cons, List.take_succ_cons, List.map_cons, ← hacs]
          rfl
        · rw [List.length_cons, List.drop_succ_cons, hnib]
    | none =>
      cases bytes with
      | nil =>
        rw [decodeACList] at hok
        rw [show readNib (none, ([] : List ℕ)) = .error () from rfl,
          except_bind_err] at hok
        exact absurd hok (by simp)
      | cons b bs =>
        rw [decodeACList] at hok
        rw [show readNib (none, b :: bs) =
            .ok (b &&& 15, (some (b >>> 4), bs)) from rfl, except_bind_ok] at hok
        dsimp only at hok
        cases hrec : decodeACList scale rest (some (b >>> 4), bs) with
        | error e =>
          cases e
          rw [hrec, except_bind_err] at hok
          exact absurd hok (by simp)
        | ok r =>
          obtain ⟨acs0, st0⟩ := r
          rw [hrec, except_bind_ok] at hok
          dsimp only at hok
          simp only [Except.ok.injEq, Prod.mk.injEq] at hok
          obtain ⟨rfl, rfl⟩ := hok
          obtain ⟨hacs, hnib⟩ := ih _ acs0 st0 hrec
          rw [nibbles_cons]
          refine ⟨?_, ?_⟩
          · rw [List.length_cons, List.take_succ_cons, List.map_cons, ← hacs]
            rfl
          · rw [List.length_cons, List.drop_succ_cons, hnib]

/-- C7: the decoder dequantizes every AC nibble as
`(nibble / 7.5 - 1) * channel_scale`, reading the nibble stream (low
nibble of each byte first) in the same channel order and the same
triangular scan as the encoder (the encoder's scan is the decoder's
preceded by the DC position); the channel scale is boosted by exactly
1.25 for P and Q while L and A use their header scales unmodified; and
the encoder applies the same unadjusted quantizer `round(15 * value)`
(`encNib`) to every channel, with no inverse of the 1.25 boost. -/
theorem C7_dequantization (c : ℚ → ℚ) (hash : List ℕ) (w h : ℕ)
    (out : List ℕ) (hok : thumb_hash_to_rgba c hash = .ok (w, h, out)) :
    ∃ hd l_ac p_ac q_ac a_ac, parseHeader hash = .ok hd ∧
      l_ac = ((nibbles (none, hd.rest)).take
        (triangleD hd.lx hd.ly).length).map (dequant hd.l_scale) ∧
      p_ac = (((nibbles (none, hd.rest)).drop
        (triangleD hd.lx hd.ly).length).take 5).map (dequant (hd.p_scale * 1.25)) ∧
      q_ac = (((nibbles (none, hd.rest)).drop
        ((triangleD hd.lx hd.ly).length + 5)).take 5).map (dequant (hd.q_scale * 1.25)) ∧
      (hd.hasAlpha = true → a_ac = (((nibbles (none, hd.rest)).drop
        ((triangleD hd.lx hd.ly).length + 10)).take 14).map (dequant hd.a_scale)) ∧
      (hd.hasAlpha = false → a_ac = []) ∧
      out = renderImage c hd.lx hd.ly hd.hasAlpha hd.l_dc hd.p_dc hd.q_dc hd.a_dc
        l_ac p_ac q_ac a_ac w h ∧
      (∀ nx ny, 1 ≤ nx → 1 ≤ ny → triangle nx ny = (0, 0) :: triangleD nx ny) ∧
      (∀ w' h' rgba', rgba_to_thumb_hash c w' h' rgba' =
        encHeaderBytes (encParts c w' h' rgba') ++
          packNibs ((encACsAll (encParts c w' h' rgba')).map encNib)) := by
  obtain ⟨r, hd, l_ac, st1, p_ac, st2, q_ac, st3, a_ac, stf,
    _, hhd, hch1, hch2, hch3, hch4, _, hout⟩ := decode_ok_full c hash w h out hok
  have h33 : (triangleD 3 3).length = 5 := by decide
  have h55 : (triangleD 5 5).length = 14 := by decide
  obtain ⟨hl_ac, hnib1⟩ := decodeACList_spec hd.l_scale _ _ _ _ hch1
  obtain ⟨hp_ac, hnib2⟩ := decodeACList_spec (hd.p_scale * 1.25) _ _ _ _ hch2
  obtain ⟨hq_ac, hnib3⟩ := decodeACList_spec (hd.q_scale * 1.25) _ _ _ _ hch3
  have hs2 : nibbles st2 = (nibbles (none, hd.rest)).drop
      ((triangleD hd.lx hd.ly).length + 5) := by
    rw [hnib2, h33, hnib1, List.drop_drop, Nat.add_comm]
  refine ⟨hd, l_ac, p_ac, q_ac, a_ac, hhd, hl_ac, ?_, ?_, ?_, ?_, hout,
    fun nx ny hnx hny => triangle_eq_cons hnx hny,
    fun w' h' rgba' => encoder_shape c w' h' rgba'⟩
  · rw [hp_ac, h33, hnib1]
  · rw [hq_ac, h33, hs2]
  · intro halpha
    rcases hch4 with ⟨_, hch4⟩ | ⟨hfalse, _, _⟩
    · obtain ⟨ha_ac, _⟩ := decodeACList_spec hd.a_scale _ _ _ _ hch4
      rw [ha_ac, h55, hnib3, h33, hs2, List.drop_drop]
    · rw [halpha] at hfalse
      exact absurd hfalse (by simp)
  · intro halpha
    rcases hch4 with ⟨htrue, _⟩ | ⟨_, ha, _⟩
    · rw [halpha] at htrue
      exact absurd htrue (by simp)
    · exact ha

unseal Rat.mul Rat.add Rat.sub Rat.inv Rat.ofScientific in
theorem C7_witness :
    thumb_hash_to_rgba cosZero
        [0, 0, 0, 0, 0, 16, 50, 100, 150, 200, 250, 33, 67, 99, 255, 1, 2] =
      .ok (0, 32, []) ∧
    (∃ hd l_ac p_ac q_ac a_ac,
      parseHeader [0, 0, 0, 0, 0, 16, 50, 100, 150, 200, 250, 33, 67, 99, 255, 1, 2] =
        .ok hd ∧
      l_ac = ((nibbles (none, hd.rest)).take
        (triangleD hd.lx hd.ly).length).map (dequant hd.l_scale) ∧
      p_ac = (((nibbles (none, hd.rest)).drop
        (triangleD hd.lx hd.ly).length).take 5).map (dequant (hd.p_scale * 1.25)) ∧
      q_ac = (((nibbles (none, hd.rest)).drop
        ((triangleD hd.lx hd.ly).length + 5)).take 5).map (dequant (hd.q_scale * 1.25)) ∧
      (hd.hasAlpha = true → a_ac = (((nibbles (none, hd.rest)).drop
        ((triangleD hd.lx hd.ly).length + 10)).take 14).map (dequant hd.a_scale)) ∧
      (hd.hasAlpha = false → a_ac = []) ∧
      ([] : List ℕ) = renderImage cosZero hd.lx hd.ly hd.hasAlpha
        hd.l_dc hd.p_dc hd.q_dc hd.a_dc l_ac p_ac q_ac a_ac 0 32 ∧
      (∀ nx ny, 1 ≤ nx → 1 ≤ ny → triangle nx ny = (0, 0) :: triangleD nx ny) ∧
      (∀ w' h' rgba', rgba_to_thumb_hash cosZero w' h' rgba' =
        encHeaderBytes (encParts cosZero w' h' rgba') ++
          packNibs ((encACsAll (encParts cosZero w' h' rgba')).map encNib))) := by
  have hok : thumb_hash_to_rgba cosZero
      [0, 0, 0, 0, 0, 16, 50, 100, 150, 200, 250, 33, 67, 99, 255, 1, 2] =
      .ok (0, 32, []) := rfl
  exact ⟨hok, C7_dequantization cosZero _ 0 32 _ hok⟩

/-! ### Claim C9: value bounds -/

theorem sum_map_le_sum_map {α : Type} (l : List α) (f g : α → ℚ)
    (h : ∀ a ∈ l, f a ≤ g a) : (l.map f).sum ≤ (l.map g).sum := by
  induction l with
  | nil => simp
  | cons a t ih =>
    simp only [List.map_cons, List.sum_cons]
    have h1 := h a (by simp)
    have h2 := ih fun b hb => h b (by simp [hb])
    linarith

theorem sum_map_const_q {α : Type} (l : List α) (k : ℚ) :
    (l.map fun _ => k).sum = l.length * k := by
  induction l with
  | nil => simp
  | cons a t ih =>
    simp only [List.map_cons, List.sum_cons, List.length_cons, ih]
    push_cast
    ring

theorem abs_sum_le_sum_abs_q (l : List ℚ) : |l.sum| ≤ (l.map fun q => |q|).sum := by
  induction l with
  | nil => simp
  | cons a t ih =>
    simp only [List.map_cons, List.sum_cons]
    calc |a + t.sum| ≤ |a| + |t.sum| := abs_add _ _
      _ ≤ |a| + (t.map fun q => |q|).sum := by linarith

theorem getD_abs_le {ch : List ℚ} {M : ℚ} (hM : 0 ≤ M)
    (hch : ∀ v ∈ ch, |v| ≤ M) (i : ℕ) : |ch.getD i 0| ≤ M := by
  rw [List.getD_eq_getElem?_getD]
  cases hg : ch[i]? with
  | none => simpa [hg] using hM
  | some v =>
    have hv : v ∈ ch := List.getElem?_mem hg
    simpa [hg] using hch v hv

theorem dctCoeff_abs_le (c : ℚ → ℚ) (w h : ℕ) (ch : List ℚ) (cx cy : ℕ)
    (hc : ∀ x, |c x| ≤ 1) (hch : ∀ v ∈ ch, |v| ≤ 1) :
    |dctCoeff c w h ch cx cy| ≤ 1 := by
  rw [dctCoeff]
  rcases Nat.eq_zero_or_pos (w * h) with hwh | hwh
  · rw [hwh]
    simp
  · have hterm : ∀ y x, |ch.getD (x + y * w) 0 * cosK c w cx x * cosK c h cy y| ≤ 1 := by
      intro y x
      rw [abs_mul, abs_mul]
      have h1 := getD_abs_le zero_le_one hch (x + y * w)
      have h2 := hc ((cx * (2 * x + 1) : ℚ) / (2 * w))
      have h3 := hc ((cy * (2 * y + 1) : ℚ) / (2 * h))
      rw [cosK, cosK]
      exact mul_le_one₀ (mul_le_one₀ h1 (abs_nonneg _) h2) (abs_nonneg _) h3
    have hinner : ∀ y, |((List.range w).map fun x =>
        ch.getD (x + y * w) 0 * cosK c w cx x * cosK c h cy y).sum| ≤ w := by
      intro y
      refine le_trans (abs_sum_le_sum_abs_q _) ?_
      rw [List.map_map]
      calc ((List.range w).map _).sum
          ≤ ((List.range w).map fun _ => (1 : ℚ)).sum :=
            sum_map_le_sum_map _ _ _ fun x _ => hterm y x
        _ = w := by rw [sum_map_const_q, List.length_range, mul_one]
    have houter : |((List.range h).map fun y => ((List.range w).map fun x =>
        ch.getD (x + y * w) 0 * cosK c w cx x * cosK c h cy y).sum).sum| ≤ h * w := by
      refine le_trans (abs_sum_le_sum_abs_q _) ?_
      rw [List.map_map]
      calc ((List.range h).map _).sum
          ≤ ((List.range h).map fun _ => (w : ℚ)).sum :=
            sum_map_le_sum_map _ _ _ fun y _ => hinner y
        _ = h * w := by rw [sum_map_const_q, List.length_range]
    rw [abs_div]
    have hpos : (0 : ℚ) < ((w * h : ℕ) : ℚ) := by exact_mod_cast hwh
    rw [abs_of_pos hpos, div_le_one hpos]
    calc |_| ≤ (h : ℚ) * w := houter
      _ = ((w * h : ℕ) : ℚ) := by push_cast; ring

/-- Bounds on the outputs of `encode_channel` for a channel whose
values are bounded by 1 in absolute value. -/
theorem encode_channel_bounds (c : ℚ → ℚ) (w h : ℕ) (ch : List ℚ)
    {nx ny : ℕ} (hnx : 1 ≤ nx) (hny : 1 ≤ ny)
    (hc : ∀ x, |c x| ≤ 1) (hch : ∀ v ∈ ch, |v| ≤ 1) :
    |(encode_channel c w h ch nx ny).1| ≤ 1 ∧
    0 ≤ (encode_channel c w h ch nx ny).2.2 ∧
    (encode_channel c w h ch nx ny).2.2 ≤ 1 := by
  rw [encode_channel_eq c w h ch hnx hny]
  refine ⟨dctCoeff_abs_le c w h ch 0 0 hc hch, maxAbs_nonneg _, ?_⟩
  apply maxAbs_le _ zero_le_one
  intro f hf
  rw [rawACs] at hf
  rcases List.mem_map.mp hf with ⟨p, _, rfl⟩
  exact dctCoeff_abs_le c w h ch p.1 p.2 hc hch

theorem sumAlpha_nonneg (px : List (ℕ × ℕ × ℕ × ℕ)) : 0 ≤ sumAlpha px := by
  induction px with
  | nil => simp [sumAlpha]
  | cons p t ih =>
    rw [sumAlpha, List.map_cons, List.sum_cons]
    rw [sumAlpha] at ih
    positivity

theorem wsum_bounds (px : List (ℕ × ℕ × ℕ × ℕ)) (sel : ℕ × ℕ × ℕ × ℕ → ℕ)
    (hsel : ∀ p ∈ px, sel p ≤ 255) :
    0 ≤ (px.map fun p => (p.2.2.2 : ℚ) / 255 / 255 * sel p).sum ∧
    (px.map fun p => (p.2.2.2 : ℚ) / 255 / 255 * sel p).sum ≤ sumAlpha px := by
  induction px with
  | nil => simp [sumAlpha]
  | cons p t ih =>
    obtain ⟨ih1, ih2⟩ := ih fun q hq => hsel q (by simp [hq])
    have hs : (sel p : ℚ) ≤ 255 := by exact_mod_cast hsel p (by simp)
    have ha : (0 : ℚ) ≤ (p.2.2.2 : ℚ) := by positivity
    have hterm0 : (0 : ℚ) ≤ (p.2.2.2 : ℚ) / 255 / 255 * sel p := by positivity
    have hterm1 : (p.2.2.2 : ℚ) / 255 / 255 * sel p ≤ (p.2.2.2 : ℚ) / 255 := by
      rw [div_div]
      rw [div_mul_eq_mul_div, div_le_div_iff (by norm_num) (by norm_num)]
      nlinarith
    rw [List.map_cons, List.sum_cons, sumAlpha, List.map_cons, List.sum_cons]
    rw [sumAlpha] at ih2
    constructor
    · linarith
    · linarith

theorem avgRGB_bounds (px : List (ℕ × ℕ × ℕ × ℕ))
    (hb : ∀ p ∈ px, p.1 ≤ 255 ∧ p.2.1 ≤ 255 ∧ p.2.2.1 ≤ 255) :
    (0 ≤ (avgRGB px).1 ∧ (avgRGB px).1 ≤ 1) ∧
    (0 ≤ (avgRGB px).2.1 ∧ (avgRGB px).2.1 ≤ 1) ∧
    (0 ≤ (avgRGB px).2.2 ∧ (avgRGB px).2.2 ≤ 1) := by
  have hr := wsum_bounds px (fun p => p.1) fun p hp => (hb p hp).1
  have hg := wsum_bounds px (fun p => p.2.1) fun p hp => (hb p hp).2.1
  have hbb := wsum_bounds px (fun p => p.2.2.1) fun p hp => (hb p hp).2.2
  have hsumR : sumR px = (px.map fun p => (p.2.2.2 : ℚ) / 255 / 255 * p.1).sum := rfl
  have hsumG : sumG px = (px.map fun p => (p.2.2.2 : ℚ) / 255 / 255 * p.2.1).sum := rfl
  have hsumB : sumB px = (px.map fun p => (p.2.2.2 : ℚ) / 255 / 255 * p.2.2.1).sum := rfl
  rw [avgRGB]
  by_cases haa : 0 < sumAlpha px
  · rw [if_pos haa]
    refine ⟨⟨?_, ?_⟩, ⟨?_, ?_⟩, ⟨?_, ?_⟩⟩ <;>
      simp only [hsumR, hsumG, hsumB] at *
    · exact div_nonneg hr.1 haa.le
    · rw [div_le_one haa]; exact hr.2
    · exact div_nonneg hg.1 haa.le
    · rw [div_le_one haa]; exact hg.2
    · exact div_nonneg hbb.1 haa.le
    · rw [div_le_one haa]; exact hbb.2
  · rw [if_neg haa]
    have haa0 : sumAlpha px = 0 :=
      le_antisymm (not_lt.mp haa) (sumAlpha_nonneg px)
    rw [haa0] at hr hg hbb
    simp only [hsumR, hsumG, hsumB]
    refine ⟨⟨hr.1, ?_⟩, ⟨hg.1, ?_⟩, ⟨hbb.1, ?_⟩⟩ <;> linarith [hr.1, hr.2, hg.1, hg.2, hbb.1, hbb.2]

theorem lpqaPixel_bounds (ar ag ab : ℚ) (p : ℕ × ℕ × ℕ × ℕ)
    (har : 0 ≤ ar ∧ ar ≤ 1) (hag : 0 ≤ ag ∧ ag ≤ 1) (hab : 0 ≤ ab ∧ ab ≤ 1)
    (hpr : p.1 ≤ 255) (hpg : p.2.1 ≤ 255) (hpb : p.2.2.1 ≤ 255)
    (hpa : p.2.2.2 ≤ 255) :
    |(lpqaPixel ar ag ab p).1| ≤ 1 ∧ |(lpqaPixel ar ag ab p).2.1| ≤ 1 ∧
    |(lpqaPixel ar ag ab p).2.2.1| ≤ 1 ∧ |(lpqaPixel ar ag ab p).2.2.2| ≤ 1 := by
  rw [lpqaPixel]
  have halpha0 : (0 : ℚ) ≤ (p.2.2.2 : ℚ) / 255 := by positivity
  have halpha1 : (p.2.2.2 : ℚ) / 255 ≤ 1 := by
    rw [div_le_one (by norm_num)]
    exact_mod_cast hpa
  have hcomp : ∀ (av : ℚ) (x : ℕ), 0 ≤ av → av ≤ 1 → x ≤ 255 →
      0 ≤ av * (1 - (p.2.2.2 : ℚ) / 255) + (p.2.2.2 : ℚ) / 255 / 255 * x ∧
      av * (1 - (p.2.2.2 : ℚ) / 255) + (p.2.2.2 : ℚ) / 255 / 255 * x ≤ 1 := by
    intro av x hav0 hav1 hx
    have hxq : (x : ℚ) ≤ 255 := by exact_mod_cast hx
    have hx0 : (0 : ℚ) ≤ (x : ℚ) := by positivity
    have hsecond : (p.2.2.2 : ℚ) / 255 / 255 * x ≤ (p.2.2.2 : ℚ) / 255 := by
      rw [div_div, div_mul_eq_mul_div, div_le_div_iff (by norm_num) (by norm_num)]
      have : (0 : ℚ) ≤ (p.2.2.2 : ℚ) := by positivity
      nlinarith
    have hsecond0 : (0 : ℚ) ≤ (p.2.2.2 : ℚ) / 255 / 255 * x := by positivity
    constructor
    · nlinarith
    · nlinarith
  obtain ⟨hr0, hr1⟩ := hcomp ar p.1 har.1 har.2 hpr
  obtain ⟨hg0, hg1⟩ := hcomp ag p.2.1 hag.1 hag.2 hpg
  obtain ⟨hb0, hb1⟩ := hcomp ab p.2.2.1 hab.1 hab.2 hpb
  refine ⟨?_, ?_, ?_, ?_⟩ <;> rw [abs_le] <;> constructor <;> linarith

theorem encLPQA_bounds (rgba : List ℕ) (hbytes : ∀ b ∈ rgba, b < 256) :
    ∀ q ∈ encLPQA rgba,
      |q.1| ≤ 1 ∧ |q.2.1| ≤ 1 ∧ |q.2.2.1| ≤ 1 ∧ |q.2.2.2| ≤ 1 := by
  intro q hq
  have hpx : ∀ p ∈ chunks4 rgba,
      p.1 ≤ 255 ∧ p.2.1 ≤ 255 ∧ p.2.2.1 ≤ 255 ∧ p.2.2.2 ≤ 255 := by
    intro p hp
    obtain ⟨h1, h2, h3, h4⟩ := mem_chunks4 hp
    exact ⟨Nat.lt_succ_iff.mp (hbytes _ h1), Nat.lt_succ_iff.mp (hbytes _ h2),
      Nat.lt_succ_iff.mp (hbytes _ h3), Nat.lt_succ_iff.mp (hbytes _ h4)⟩
  have havg := avgRGB_bounds (chunks4 rgba) fun p hp =>
    ⟨(hpx p hp).1, (hpx p hp).2.1, (hpx p hp).2.2.1⟩
  rw [encLPQA] at hq
  rcases List.mem_map.mp hq with ⟨p, hp, rfl⟩
  exact lpqaPixel_bounds _ _ _ _ havg.1 havg.2.1 havg.2.2
    (hpx p hp).1 (hpx p hp).2.1 (hpx p hp).2.2.1 (hpx p hp).2.2.2

theorem encParts_bounds (c : ℚ → ℚ) (w h : ℕ) (rgba : List ℕ)
    (hc : ∀ x, |c x| ≤ 1) (hbytes : ∀ b ∈ rgba, b < 256) :
    |(encParts c w h rgba).l_dc| ≤ 1 ∧
    (0 ≤ (encParts c w h rgba).l_scale ∧ (encParts c w h rgba).l_scale ≤ 1) ∧
    |(encParts c w h rgba).p_dc| ≤ 1 ∧
    (0 ≤ (encParts c w h rgba).p_scale ∧ (encParts c w h rgba).p_scale ≤ 1) ∧
    |(encParts c w h rgba).q_dc| ≤ 1 ∧
    (0 ≤ (encParts c w h rgba).q_scale ∧ (encParts c w h rgba).q_scale ≤ 1) ∧
    |(encParts c w h rgba).a_dc| ≤ 1 ∧
    (0 ≤ (encParts c w h rgba).a_scale ∧ (encParts c w h rgba).a_scale ≤ 1) := by
  have hchan := encLPQA_bounds rgba hbytes
  have hchL : ∀ v ∈ (encLPQA rgba).map (·.1), |v| ≤ 1 := by
    intro v hv
    rcases List.mem_map.mp hv with ⟨q, hq, rfl⟩
    exact (hchan q hq).1
  have hchP : ∀ v ∈ (encLPQA rgba).map (·.2.1), |v| ≤ 1 := by
    intro v hv
    rcases List.mem_map.mp hv with ⟨q, hq, rfl⟩
    exact (hchan q hq).2.1
  have hchQ : ∀ v ∈ (encLPQA rgba).map (·.2.2.1), |v| ≤ 1 := by
    intro v hv
    rcases List.mem_map.mp hv with ⟨q, hq, rfl⟩
    exact (hchan q hq).2.2.1
  have hchA : ∀ v ∈ (encLPQA rgba).map (·.2.2.2), |v| ≤ 1 := by
    intro v hv
    rcases List.mem_map.mp hv with ⟨q, hq, rfl⟩
    exact (hchan q hq).2.2.2
  have hL := @encode_channel_bounds c w h ((encLPQA rgba).map (·.1))
    (max (lGridDim (if hasAlphaFlag w h rgba then 5 else 7) w (max w h)) 3)
    (max (lGridDim (if hasAlphaFlag w h rgba then 5 else 7) h (max w h)) 3)
    (by omega) (by omega) hc hchL
  have hP := @encode_channel_bounds c w h ((encLPQA rgba).map (·.2.1))
    3 3 (by omega) (by omega) hc hchP
  have hQ := @encode_channel_bounds c w h ((encLPQA rgba).map (·.2.2.1))
    3 3 (by omega) (by omega) hc hchQ
  have hA := @encode_channel_bounds c w h ((encLPQA rgba).map (·.2.2.2))
    5 5 (by omega) (by omega) hc hchA
  refine ⟨hL.1, ⟨hL.2.1, hL.2.2⟩, hP.1, ⟨hP.2.1, hP.2.2⟩, hQ.1, ⟨hQ.2.1, hQ.2.2⟩, ?_, ?_⟩
  · show |(if hasAlphaFlag w h rgba then
        encode_channel c w h ((encLPQA rgba).map (·.2.2.2)) 5 5
      else ((1 : ℚ), ([] : List ℚ), (1 : ℚ))).1| ≤ 1
    split_ifs
    · exact hA.1
    · norm_num
  · show 0 ≤ (if hasAlphaFlag w h rgba then
        encode_channel c w h ((encLPQA rgba).map (·.2.2.2)) 5 5
      else ((1 : ℚ), ([] : List ℚ), (1 : ℚ))).2.2 ∧
      (if hasAlphaFlag w h rgba then
        encode_channel c w h ((encLPQA rgba).map (·.2.2.2)) 5 5
      else ((1 : ℚ), ([] : List ℚ), (1 : ℚ))).2.2 ≤ 1
    split_ifs
    · exact ⟨hA.2.1, hA.2.2⟩
    · norm_num

/-! ### Claim C9: header arithmetic -/

theorem header24_parts (c : ℚ → ℚ) (w h : ℕ) (rgba : List ℕ)
    (hc : ∀ x, |c x| ≤ 1) (hbytes : ∀ b ∈ rgba, b < 256) :
    ∃ A B C D, encHeader24 (encParts c w h rgba) =
      A + B * 2 ^ 6 + C * 2 ^ 12 + D * 2 ^ 18 +
        (if (encParts c w h rgba).has_alpha then 2 ^ 23 else 0) ∧
      A ≤ 63 ∧ B ≤ 63 ∧ C ≤ 63 ∧ D ≤ 31 := by
  obtain ⟨hld, ⟨hls0, hls1⟩, hpd, _, hqd, _, _, _⟩ :=
    encParts_bounds c w h rgba hc hbytes
  set e := encParts c w h rgba
  have hA : toU32 (rustRound (63 * e.l_dc)) ≤ 63 := by
    apply toU32_round_le
    have := abs_le.mp hld
    push_cast
    linarith [this.2]
  have hB : toU32 (rustRound (31.5 + 31.5 * e.p_dc)) ≤ 63 := by
    apply toU32_round_le
    have := abs_le.mp hpd
    push_cast
    norm_num
    linarith [this.2]
  have hC : toU32 (rustRound (31.5 + 31.5 * e.q_dc)) ≤ 63 := by
    apply toU32_round_le
    have := abs_le.mp hqd
    push_cast
    norm_num
    linarith [this.2]
  have hD : toU32 (rustRound (31 * e.l_scale)) ≤ 31 := by
    apply toU32_round_le
    push_cast
    linarith
  refine ⟨toU32 (rustRound (63 * e.l_dc)), toU32 (rustRound (31.5 + 31.5 * e.p_dc)),
    toU32 (rustRound (31.5 + 31.5 * e.q_dc)), toU32 (rustRound (31 * e.l_scale)),
    ?_, hA, hB, hC, hD⟩
  rw [encHeader24]
  have hm1 : toU32 (rustRound (31.5 + 31.5 * e.p_dc)) <<< 6 % 2 ^ 32 =
      toU32 (rustRound (31.5 + 31.5 * e.p_dc)) * 2 ^ 6 := by
    rw [Nat.shiftLeft_eq, Nat.mod_eq_of_lt (by omega)]
  have hm2 : toU32 (rustRound (31.5 + 31.5 * e.q_dc)) <<< 12 % 2 ^ 32 =
      toU32 (rustRound (31.5 + 31.5 * e.q_dc)) * 2 ^ 12 := by
    rw [Nat.shiftLeft_eq, Nat.mod_eq_of_lt (by omega)]
  have hm3 : toU32 (rustRound (31 * e.l_scale)) <<< 18 % 2 ^ 32 =
      toU32 (rustRound (31 * e.l_scale)) * 2 ^ 18 := by
    rw [Nat.shiftLeft_eq, Nat.mod_eq_of_lt (by omega)]
  rw [hm1, hm2, hm3]
  rw [show toU32 (rustRound (31.5 + 31.5 * e.p_dc)) * 2 ^ 6 =
    toU32 (rustRound (31.5 + 31.5 * e.p_dc)) <<< 6 from (Nat.shiftLeft_eq ..).symm]
  rw [lor_shift_add _ _ _ (by omega)]
  rw [show toU32 (rustRound (31.5 + 31.5 * e.q_dc)) * 2 ^ 12 =
    toU32 (rustRound (31.5 + 31.5 * e.q_dc)) <<< 12 from (Nat.shiftLeft_eq ..).symm]
  rw [lor_shift_add _ _ _ (by omega)]
  rw [show toU32 (rustRound (31 * e.l_scale)) * 2 ^ 18 =
    toU32 (rustRound (31 * e.l_scale)) <<< 18 from (Nat.shiftLeft_eq ..).symm]
  rw [lor_shift_add _ _ _ (by omega)]
  cases e.has_alpha with
  | false =>
    simp only [Bool.false_eq_true, if_false, Nat.or_zero, Nat.add_zero,
      Nat.shiftLeft_eq]
  | true =>
    rw [if_pos rfl, if_pos rfl, lor_shift_add _ 1 23 (by omega)]
    simp only [Nat.shiftLeft_eq, if_true, ite_true]
    omega

theorem header16_parts (c : ℚ → ℚ) (w h : ℕ) (rgba : List ℕ)
    (hc : ∀ x, |c x| ≤ 1) (hbytes : ∀ b ∈ rgba, b < 256)
    (hw1 : 1 ≤ w) (hh1 : 1 ≤ h) :
    ∃ P Q, encHeader16 (encParts c w h rgba) =
      (if (encParts c w h rgba).is_landscape then (encParts c w h rgba).ly
        else (encParts c w h rgba).lx) +
      P * 2 ^ 3 + Q * 2 ^ 9 +
        (if (encParts c w h rgba).is_landscape then 2 ^ 15 else 0) ∧
      (if (encParts c w h rgba).is_landscape then (encParts c w h rgba).ly
        else (encParts c w h rgba).lx) ≤ 7 ∧ P ≤ 63 ∧ Q ≤ 63 := by
  obtain ⟨_, _, _, ⟨hps0, hps1⟩, _, ⟨hqs0, hqs1⟩, _, _⟩ :=
    encParts_bounds c w h rgba hc hbytes
  set e := encParts c w h rgba with he
  have hll1 : 1 ≤ (if hasAlphaFlag w h rgba then 5 else 7) := by split_ifs <;> omega
  have hll7 : (if hasAlphaFlag w h rgba then 5 else 7) ≤ 7 := by split_ifs <;> omega
  have hlx7 : e.lx ≤ 7 := by
    show lGridDim _ w (max w h) ≤ 7
    exact le_trans (lGridDim_le (by omega) (le_max_left w h) hll1 hll7) hll7
  have hly7 : e.ly ≤ 7 := by
    show lGridDim _ h (max w h) ≤ 7
    exact le_trans (lGridDim_le (by omega) (le_max_right w h) hll1 hll7) hll7
  have hP : toU16 (rustRound (63 * e.p_scale)) ≤ 63 := by
    apply toU16_round_le
    push_cast
    linarith
  have hQ : toU16 (rustRound (63 * e.q_scale)) ≤ 63 := by
    apply toU16_round_le
    push_cast
    linarith
  have hF7 : (if e.is_landscape then e.ly else e.lx) ≤ 7 := by split_ifs <;> assumption
  refine ⟨toU16 (rustRound (63 * e.p_scale)), toU16 (rustRound (63 * e.q_scale)),
    ?_, hF7, hP, hQ⟩
  rw [encHeader16]
  have hm0 : (if e.is_landscape then e.ly else e.lx) % 2 ^ 16 =
      (if e.is_landscape then e.ly else e.lx) := Nat.mod_eq_of_lt (by omega)
  have hm1 : toU16 (rustRound (63 * e.p_scale)) <<< 3 % 2 ^ 16 =
      toU16 (rustRound (63 * e.p_scale)) * 2 ^ 3 := by
    rw [Nat.shiftLeft_eq, Nat.mod_eq_of_lt (by omega)]
  have hm2 : toU16 (rustRound (63 * e.q_scale)) <<< 9 % 2 ^ 16 =
      toU16 (rustRound (63 * e.q_scale)) * 2 ^ 9 := by
    rw [Nat.shiftLeft_eq, Nat.mod_eq_of_lt (by omega)]
  rw [hm0, hm1, hm2]
  rw [show toU16 (rustRound (63 * e.p_scale)) * 2 ^ 3 =
    toU16 (rustRound (63 * e.p_scale)) <<< 3 from (Nat.shiftLeft_eq ..).symm]
  rw [lor_shift_add _ _ _ (by omega)]
  rw [show toU16 (rustRound (63 * e.q_scale)) * 2 ^ 9 =
    toU16 (rustRound (63 * e.q_scale)) <<< 9 from (Nat.shiftLeft_eq ..).symm]
  rw [lor_shift_add _ _ _ (by omega)]
  cases e.is_landscape with
  | false =>
    simp only [Bool.false_eq_true, if_false, Nat.or_zero, Nat.add_zero,
      Nat.shiftLeft_eq]
  | true =>
    rw [if_pos rfl, if_pos rfl, lor_shift_add _ 1 15 (by omega)]
    simp only [Nat.shiftLeft_eq, if_true, ite_true]
    omega

/-! ### Claim C9: byte reassembly and nibble consumption -/

theorem reassemble24 (n : ℕ) (hn : n < 2 ^ 24) :
    (n &&& 255) ||| ((n >>> 8 &&& 255) <<< 8) ||| (((n >>> 16) % 256) <<< 16) = n ∧
    n &&& 255 < 256 ∧ (n >>> 8) &&& 255 < 256 ∧ (n >>> 16) % 256 < 256 := by
  have e255 : (255 : ℕ) = 2 ^ 8 - 1 := by norm_num
  simp only [e255, and_mask, shiftRight_div]
  refine ⟨?_, by omega, by omega, by omega⟩
  rw [show n % 2 ^ 8 ||| (n / 2 ^ 8 % 2 ^ 8) <<< 8 =
      n % 2 ^ 8 + (n / 2 ^ 8 % 2 ^ 8) * 2 ^ 8 from lor_shift_add _ _ _ (by omega),
    lor_shift_add _ _ _ (by omega)]
  omega

theorem reassemble16 (n : ℕ) (hn : n < 2 ^ 16) :
    (n &&& 255) ||| (((n >>> 8) % 256) <<< 8) = n ∧
    n &&& 255 < 256 ∧ (n >>> 8) % 256 < 256 := by
  have e255 : (255 : ℕ) = 2 ^ 8 - 1 := by norm_num
  simp only [e255, and_mask, shiftRight_div]
  refine ⟨?_, by omega, by omega⟩
  rw [lor_shift_add _ _ _ (by omega)]
  omega

theorem decodeACList_ok (scale : ℚ) :
    ∀ (tri : List (ℕ × ℕ)) (st : Option ℕ × List ℕ),
      tri.length ≤ navail st →
      ∃ acs st', decodeACList scale tri st = .ok (acs, st') ∧
        navail st' = navail st - tri.length := by
  intro tri
  induction tri with
  | nil =>
    intro st _
    exact ⟨[], st, rfl, by simp⟩
  | cons p rest ih =>
    intro st hle
    obtain ⟨prev, bytes⟩ := st
    cases prev with
    | some b =>
      obtain ⟨acs, st', hok, hnav⟩ := ih (none, bytes) (by
        simp only [navail, List.length_cons] at hle ⊢
        omega)
      refine ⟨((b : ℚ) / 7.5 - 1) * scale :: acs, st', ?_, ?_⟩
      · rw [decodeACList,
          show readNib (some b, bytes) = .ok (b, (none, bytes)) from rfl,
          except_bind_ok]
        dsimp only
        rw [hok, except_bind_ok]
      · simp only [navail, List.length_cons] at hnav ⊢
        omega
    | none =>
      cases bytes with
      | nil =>
        exfalso
        simp [navail, List.length_cons] at hle
      | cons b bs =>
        obtain ⟨acs, st', hok, hnav⟩ := ih (some (b >>> 4), bs) (by
          simp only [navail, List.length_cons] at hle ⊢
          omega)
        refine ⟨(((b &&& 15 : ℕ) : ℚ) / 7.5 - 1) * scale :: acs, st', ?_, ?_⟩
        · rw [decodeACList,
            show readNib (none, b :: bs) =
              .ok (b &&& 15, (some (b >>> 4), bs)) from rfl, except_bind_ok]
          dsimp only
          rw [hok, except_bind_ok]
        · simp only [navail, List.length_cons] at hnav ⊢
          omega

theorem encode_channel_ac_length (c : ℚ → ℚ) (w h : ℕ) (ch : List ℚ)
    {nx ny : ℕ} (hnx : 1 ≤ nx) (hny : 1 ≤ ny) :
    (encode_channel c w h ch nx ny).2.1.length = (triangleD nx ny).length := by
  rw [encode_channel_eq c w h ch hnx hny]
  split_ifs <;> simp [rawACs]

/-- `parseHeader` on an explicit 5-byte prefix, no alpha flag. -/
theorem parseHeader_cons_noalpha (b0 b1 b2 b3 b4 : ℕ) (rest : List ℕ)
    (h : (b0 ||| b1 <<< 8 ||| b2 <<< 16) >>> 23 = 0) :
    parseHeader (b0 :: b1 :: b2 :: b3 :: b4 :: rest) =
      .ok ⟨(((b0 ||| b1 <<< 8 ||| b2 <<< 16) &&& 63 : ℕ) : ℚ) / 63,
        ((((b0 ||| b1 <<< 8 ||| b2 <<< 16) >>> 6) &&& 63 : ℕ) : ℚ) / 31.5 - 1,
        ((((b0 ||| b1 <<< 8 ||| b2 <<< 16) >>> 12) &&& 63 : ℕ) : ℚ) / 31.5 - 1,
        ((((b0 ||| b1 <<< 8 ||| b2 <<< 16) >>> 18) &&& 31 : ℕ) : ℚ) / 31,
        false,
        ((((b3 ||| b4 <<< 8) >>> 3) &&& 63 : ℕ) : ℚ) / 63,
        ((((b3 ||| b4 <<< 8) >>> 9) &&& 63 : ℕ) : ℚ) / 63,
        decide ((b3 ||| b4 <<< 8) >>> 15 ≠ 0),
        max 3 (if decide ((b3 ||| b4 <<< 8) >>> 15 ≠ 0) = true then 7
          else (b3 ||| b4 <<< 8) &&& 7),
        max 3 (if decide ((b3 ||| b4 <<< 8) >>> 15 ≠ 0) = true then
          (b3 ||| b4 <<< 8) &&& 7 else 7),
        1, 1, rest⟩ := by
  have hd : decide ((b0 ||| b1 <<< 8 ||| b2 <<< 16) >>> 23 ≠ 0) = false := by
    simp [h]
  unfold parseHeader
  rw [show read_byte (b0 :: b1 :: b2 :: b3 :: b4 :: rest) =
    .ok (b0, b1 :: b2 :: b3 :: b4 :: rest) from rfl, except_bind_ok]
  dsimp only
  rw [show read_byte (b1 :: b2 :: b3 :: b4 :: rest) =
    .ok (b1, b2 :: b3 :: b4 :: rest) from rfl, except_bind_ok]
  dsimp only
  rw [show read_byte (b2 :: b3 :: b4 :: rest) =
    .ok (b2, b3 :: b4 :: rest) from rfl, except_bind_ok]
  dsimp only
  rw [show read_byte (b3 :: b4 :: rest) = .ok (b3, b4 :: rest) from rfl,
    except_bind_ok]
  dsimp only
  rw [show read_byte (b4 :: rest) = .ok (b4, rest) from rfl, except_bind_ok]
  dsimp only
  rw [hd]
  simp

/-- `parseHeader` on an explicit 6-byte prefix, alpha flag set. -/
theorem parseHeader_cons_alpha (b0 b1 b2 b3 b4 b5 : ℕ) (rest : List ℕ)
    (h : (b0 ||| b1 <<< 8 ||| b2 <<< 16) >>> 23 ≠ 0) :
    parseHeader (b0 :: b1 :: b2 :: b3 :: b4 :: b5 :: rest) =
      .ok ⟨(((b0 ||| b1 <<< 8 ||| b2 <<< 16) &&& 63 : ℕ) : ℚ) / 63,
        ((((b0 ||| b1 <<< 8 ||| b2 <<< 16) >>> 6) &&& 63 : ℕ) : ℚ) / 31.5 - 1,
        ((((b0 ||| b1 <<< 8 ||| b2 <<< 16) >>> 12) &&& 63 : ℕ) : ℚ) / 31.5 - 1,
        ((((b0 ||| b1 <<< 8 ||| b2 <<< 16) >>> 18) &&& 31 : ℕ) : ℚ) / 31,
        true,
        ((((b3 ||| b4 <<< 8) >>> 3) &&& 63 : ℕ) : ℚ) / 63,
        ((((b3 ||| b4 <<< 8) >>> 9) &&& 63 : ℕ) : ℚ) / 63,
        decide ((b3 ||| b4 <<< 8) >>> 15 ≠ 0),
        max 3 (if decide ((b3 ||| b4 <<< 8) >>> 15 ≠ 0) = true then 5
          else (b3 ||| b4 <<< 8) &&& 7),
        max 3 (if decide ((b3 ||| b4 <<< 8) >>> 15 ≠ 0) = true then
          (b3 ||| b4 <<< 8) &&& 7 else 5),
        ((b5 &&& 15 : ℕ) : ℚ) / 15, ((b5 >>> 4 : ℕ) : ℚ) / 15, rest⟩ := by
  have hd : decide ((b0 ||| b1 <<< 8 ||| b2 <<< 16) >>> 23 ≠ 0) = true := by
    simp [h]
  unfold parseHeader
  rw [show read_byte (b0 :: b1 :: b2 :: b3 :: b4 :: b5 :: rest) =
    .ok (b0, b1 :: b2 :: b3 :: b4 :: b5 :: rest) from rfl, except_bind_ok]
  dsimp only
  rw [show read_byte (b1 :: b2 :: b3 :: b4 :: b5 :: rest) =
    .ok (b1, b2 :: b3 :: b4 :: b5 :: rest) from rfl, except_bind_ok]
  dsimp only
  rw [show read_byte (b2 :: b3 :: b4 :: b5 :: rest) =
    .ok (b2, b3 :: b4 :: b5 :: rest) from rfl, except_bind_ok]
  dsimp only
  rw [show read_byte (b3 :: b4 :: b5 :: rest) =
    .ok (b3, b4 :: b5 :: rest) from rfl, except_bind_ok]
  dsimp only
  rw [show read_byte (b4 :: b5 :: rest) = .ok (b4, b5 :: rest) from rfl,
    except_bind_ok]
  dsimp only
  rw [hd]
  simp only [if_true, ite_true]
  rw [show read_byte (b5 :: rest) = .ok (b5, rest) from rfl, except_bind_ok]

/-! ### Claim C9 -/

/-- C9 (amended: the original claim is refuted at the empty image by
`C9_counterexample` below, so the roundtrip holds for nonempty images
only): on every valid encoder input with a nonempty image (`1 ≤ w ≤ 100`,
`1 ≤ h ≤ 100`, `rgba` of length `w * h * 4` with byte-sized entries),
decoding the encoder's output succeeds: `thumb_hash_to_rgba` applied to
`rgba_to_thumb_hash` returns `Ok`, never the `TooShort` error, because
the encoder emits at least as many header and nibble bytes as the
decoder consumes — both sides derive identical per-channel coefficient
counts from the same header fields. -/
theorem C9_roundtrip (c : ℚ → ℚ) (w h : ℕ) (rgba : List ℕ)
    (hc : ∀ x, |c x| ≤ 1) (hbytes : ∀ b ∈ rgba, b < 256)
    (hw1 : 1 ≤ w) (hw : w ≤ 100) (hh1 : 1 ≤ h) (hh : h ≤ 100)
    (hlen : rgba.length = w * h * 4) :
    ∃ res, thumb_hash_to_rgba c (rgba_to_thumb_hash c w h rgba) = .ok res := by
  obtain ⟨A, B, C0, D, h24eq, hA, hB, hC, hD⟩ := header24_parts c w h rgba hc hbytes
  obtain ⟨P, Q, h16eq, hF7, hP, hQ⟩ := header16_parts c w h rgba hc hbytes hw1 hh1
  set e := encParts c w h rgba with he
  set n24 := encHeader24 e with hn24
  set n16 := encHeader16 e with hn16
  set pack := packNibs ((encACsAll e).map encNib) with hpackdef
  have hnav0 : navail ((none : Option ℕ), pack) = 2 * pack.length := by
    simp [navail]
  have hlac : e.l_ac = (encode_channel c w h ((encLPQA rgba).map fun t => t.1)
      (max e.lx 3) (max e.ly 3)).2.1 := by rw [he]; rfl
  have hT1 : e.l_ac.length = (triangleD (max e.lx 3) (max e.ly 3)).length := by
    rw [hlac]
    exact encode_channel_ac_length c w h _
      (le_trans (by omega) (le_max_right e.lx 3))
      (le_trans (by omega) (le_max_right e.ly 3))
  have hpac : e.p_ac = (encode_channel c w h ((encLPQA rgba).map fun t => t.2.1)
      3 3).2.1 := by rw [he]; rfl
  have hT2 : e.p_ac.length = (triangleD 3 3).length := by
    rw [hpac]
    exact encode_channel_ac_length c w h _ (by omega) (by omega)
  have hqac : e.q_ac = (encode_channel c w h ((encLPQA rgba).map fun t => t.2.2.1)
      3 3).2.1 := by rw [he]; rfl
  have hT3 : e.q_ac.length = (triangleD 3 3).length := by
    rw [hqac]
    exact encode_channel_ac_length c w h _ (by omega) (by omega)
  have helx : e.lx = lGridDim (if hasAlphaFlag w h rgba then 5 else 7) w (max w h) := by
    rw [he]; rfl
  have hely : e.ly = lGridDim (if hasAlphaFlag w h rgba then 5 else 7) h (max w h) := by
    rw [he]; rfl
  have hn16lt : n16 < 2 ^ 16 := by
    rw [h16eq]
    split_ifs at hF7 ⊢ <;> omega
  obtain ⟨hre16, hb3, hb4⟩ := reassemble16 n16 hn16lt
  cases halpha : e.has_alpha with
  | false =>
    have haFlag : hasAlphaFlag w h rgba = false := halpha
    rw [halpha] at h24eq
    simp only [Bool.false_eq_true, if_false, Nat.add_zero] at h24eq
    have hn24lt : n24 < 2 ^ 24 := by omega
    have h23 : n24 >>> 23 = 0 := by rw [shiftRight_div]; omega
    obtain ⟨hre24, hb0, hb1, hb2⟩ := reassemble24 n24 hn24lt
    have htail : encHeaderBytes e =
        [n24 &&& 255, (n24 >>> 8) &&& 255, (n24 >>> 16) % 256,
         n16 &&& 255, (n16 >>> 8) % 256] := by
      simp only [encHeaderBytes, halpha, Bool.false_eq_true, if_false]
    have hashEq : rgba_to_thumb_hash c w h rgba =
        (n24 &&& 255) :: ((n24 >>> 8) &&& 255) :: ((n24 >>> 16) % 256) ::
        (n16 &&& 255) :: ((n16 >>> 8) % 256) :: pack := by
      rw [encoder_shape c w h rgba, ← he, ← hpackdef, htail]
      simp only [List.cons_append, List.nil_append]
    have hasp : ∃ r, thumb_hash_to_approximate_aspect_ratio
        ((n24 &&& 255) :: ((n24 >>> 8) &&& 255) :: ((n24 >>> 16) % 256) ::
         (n16 &&& 255) :: ((n16 >>> 8) % 256) :: pack) = .ok r := by
      unfold thumb_hash_to_approximate_aspect_ratio
      rw [if_neg (by simp only [List.length_cons]; omega)]
      exact ⟨_, rfl⟩
    obtain ⟨rv, hasp⟩ := hasp
    have hparse := parseHeader_cons_noalpha (n24 &&& 255) ((n24 >>> 8) &&& 255)
      ((n24 >>> 16) % 256) (n16 &&& 255) ((n16 >>> 8) % 256) pack
      (by rw [hre24]; exact h23)
    rw [hre24, hre16] at hparse
    have hACall : encACsAll e = e.l_ac ++ e.p_ac ++ e.q_ac ++ [] := by
      simp only [encACsAll, halpha, Bool.false_eq_true, if_false]
    have hN : ((encACsAll e).map encNib).length =
        (triangleD (max e.lx 3) (max e.ly 3)).length +
        (triangleD 3 3).length + (triangleD 3 3).length := by
      rw [hACall]
      simp only [List.length_map, List.length_append, List.length_nil,
        hT1, hT2, hT3]
      omega
    have hplen : pack.length =
        ((triangleD (max e.lx 3) (max e.ly 3)).length +
         (triangleD 3 3).length + (triangleD 3 3).length + 1) / 2 := by
      rw [hpackdef, packNibs_length, hN]
    obtain ⟨a1, s1, hch1, hnav1⟩ := decodeACList_ok
      ((((n24 >>> 18) &&& 31 : ℕ) : ℚ) / 31)
      (triangleD (max e.lx 3) (max e.ly 3)) ((none : Option ℕ), pack)
      (by rw [hnav0, hplen]; omega)
    obtain ⟨a2, s2, hch2, hnav2⟩ := decodeACList_ok
      (((((n16 >>> 3) &&& 63 : ℕ) : ℚ) / 63) * 1.25)
      (triangleD 3 3) s1 (by rw [hnav1, hnav0, hplen]; omega)
    obtain ⟨a3, s3, hch3, hnav3⟩ := decodeACList_ok
      (((((n16 >>> 9) &&& 63 : ℕ) : ℚ) / 63) * 1.25)
      (triangleD 3 3) s2 (by rw [hnav2, hnav1, hnav0, hplen]; omega)
    have hgx : max 3 (if decide (n16 >>> 15 ≠ 0) = true then 7 else n16 &&& 7) =
          max e.lx 3 ∧
        max 3 (if decide (n16 >>> 15 ≠ 0) = true then n16 &&& 7 else 7) =
          max e.ly 3 := by
      cases hland : e.is_landscape with
      | true =>
        have hlt : h < w := of_decide_eq_true hland
        rw [hland] at h16eq hF7
        rw [if_pos rfl] at hF7
        rw [if_pos rfl, if_pos rfl] at h16eq
        have h15 : n16 >>> 15 = 1 := by rw [shiftRight_div]; omega
        have hmw : max w h = w := Nat.max_eq_left (le_of_lt hlt)
        have helx7 : e.lx = 7 := by
          rw [helx, haFlag]
          simp only [Bool.false_eq_true, if_false]
          rw [hmw]
          exact lGridDim_long (by omega) (by omega) (by omega)
        have hand7 : n16 &&& 7 = e.ly := by
          rw [show (7 : ℕ) = 2 ^ 3 - 1 by norm_num, and_mask]
          omega
        constructor
        · rw [h15, if_pos (by decide), helx7]
          omega
        · rw [h15, if_pos (by decide), hand7]
          omega
      | false =>
        have hnlt : ¬ h < w := of_decide_eq_false hland
        rw [hland] at h16eq hF7
        simp only [Bool.false_eq_true, if_false] at h16eq hF7
        have h15 : n16 >>> 15 = 0 := by rw [shiftRight_div]; omega
        have hmh : max w h = h := Nat.max_eq_right (by omega)
        have hely7 : e.ly = 7 := by
          rw [hely, haFlag]
          simp only [Bool.false_eq_true, if_false]
          rw [hmh]
          exact lGridDim_long (by omega) (by omega) (by omega)
        have hand7 : n16 &&& 7 = e.lx := by
          rw [show (7 : ℕ) = 2 ^ 3 - 1 by norm_num, and_mask]
          omega
        constructor
        · rw [h15, if_neg (by decide), hand7]
          omega
        · rw [h15, if_neg (by decide), hely7]
          omega
    obtain ⟨hgx1, hgx2⟩ := hgx
    rw [hashEq]
    unfold thumb_hash_to_rgba
    rw [hasp, except_bind_ok, hparse, except_bind_ok]
    dsimp only
    rw [hgx1, hgx2]
    simp only [decode_channel]
    rw [hch1, except_bind_ok]
    dsimp only
    rw [hch2, except_bind_ok]
    dsimp only
    rw [hch3, except_bind_ok]
    dsimp only
    simp only [Bool.false_eq_true, if_false]
    rw [except_bind_ok]
    dsimp only
    rcases hdim : dimsFromRatio rv with ⟨dw, dh⟩
    exact ⟨_, rfl⟩
  | true =>
    have haFlag : hasAlphaFlag w h rgba = true := halpha
    rw [halpha] at h24eq
    rw [if_pos rfl] at h24eq
    have hn24lt : n24 < 2 ^ 24 := by omega
    obtain ⟨hre24, hb0, hb1, hb2⟩ := reassemble24 n24 hn24lt
    set ab := toU8 (rustRound (15 * e.a_dc)) |||
      (toU8 (rustRound (15 * e.a_scale)) <<< 4) % 256 with habdef
    have haac : e.a_ac = (encode_channel c w h
        ((encLPQA rgba).map fun t => t.2.2.2) 5 5).2.1 := by
      have hstep : e.a_ac = (if hasAlphaFlag w h rgba = true then
          encode_channel c w h ((encLPQA rgba).map fun t => t.2.2.2) 5 5
          else ((1 : ℚ), ([] : List ℚ), (1 : ℚ))).2.1 := by rw [he]; rfl
      rw [hstep, haFlag, if_pos rfl]
    have hT4 : e.a_ac.length = (triangleD 5 5).length := by
      rw [haac]
      exact encode_channel_ac_length c w h _ (by omega) (by omega)
    have htail : encHeaderBytes e =
        [n24 &&& 255, (n24 >>> 8) &&& 255, (n24 >>> 16) % 256,
         n16 &&& 255, (n16 >>> 8) % 256, ab] := by
      simp only [encHeaderBytes, halpha, if_true]
      rw [hn24, hn16, habdef]
      simp only [List.cons_append, List.nil_append]
    have hashEq : rgba_to_thumb_hash c w h rgba =
        (n24 &&& 255) :: ((n24 >>> 8) &&& 255) :: ((n24 >>> 16) % 256) ::
        (n16 &&& 255) :: ((n16 >>> 8) % 256) :: ab :: pack := by
      rw [encoder_shape c w h rgba, ← he, ← hpackdef, htail]
      simp only [List.cons_append, List.nil_append]
    have hasp : ∃ r, thumb_hash_to_approximate_aspect_ratio
        ((n24 &&& 255) :: ((n24 >>> 8) &&& 255) :: ((n24 >>> 16) % 256) ::
         (n16 &&& 255) :: ((n16 >>> 8) % 256) :: ab :: pack) = .ok r := by
      unfold thumb_hash_to_approximate_aspect_ratio
      rw [if_neg (by simp only [List.length_cons]; omega)]
      exact ⟨_, rfl⟩
    obtain ⟨rv, hasp⟩ := hasp
    have hparse := parseHeader_cons_alpha (n24 &&& 255) ((n24 >>> 8) &&& 255)
      ((n24 >>> 16) % 256) (n16 &&& 255) ((n16 >>> 8) % 256) ab pack
      (by rw [hre24, shiftRight_div]; omega)
    rw [hre24, hre16] at hparse
    have hACall : encACsAll e = e.l_ac ++ e.p_ac ++ e.q_ac ++ e.a_ac := by
      simp only [encACsAll, halpha, if_true]
    have hN : ((encACsAll e).map encNib).length =
        (triangleD (max e.lx 3) (max e.ly 3)).length +
        (triangleD 3 3).length + (triangleD 3 3).length +
        (triangleD 5 5).length := by
      rw [hACall]
      simp only [List.length_map, List.length_append, hT1, hT2, hT3, hT4]
    have hplen : pack.length =
        ((triangleD (max e.lx 3) (max e.ly 3)).length +
         (triangleD 3 3).length + (triangleD 3 3).length +
         (triangleD 5 5).length + 1) / 2 := by
      rw [hpackdef, packNibs_length, hN]
    obtain ⟨a1, s1, hch1, hnav1⟩ := decodeACList_ok
      ((((n24 >>> 18) &&& 31 : ℕ) : ℚ) / 31)
      (triangleD (max e.lx 3) (max e.ly 3)) ((none : Option ℕ), pack)
      (by rw [hnav0, hplen]; omega)
    obtain ⟨a2, s2, hch2, hnav2⟩ := decodeACList_ok
      (((((n16 >>> 3) &&& 63 : ℕ) : ℚ) / 63) * 1.25)
      (triangleD 3 3) s1 (by rw [hnav1, hnav0, hplen]; omega)
    obtain ⟨a3, s3, hch3, hnav3⟩ := decodeACList_ok
      (((((n16 >>> 9) &&& 63 : ℕ) : ℚ) / 63) * 1.25)
      (triangleD 3 3) s2 (by rw [hnav2, hnav1, hnav0, hplen]; omega)
    obtain ⟨a4, s4, hch4, hnav4⟩ := decodeACList_ok
      (((ab >>> 4 : ℕ) : ℚ) / 15)
      (triangleD 5 5) s3 (by rw [hnav3, hnav2, hnav1, hnav0, hplen]; omega)
    have hgx : max 3 (if decide (n16 >>> 15 ≠ 0) = true then 5 else n16 &&& 7) =
          max e.lx 3 ∧
        max 3 (if decide (n16 >>> 15 ≠ 0) = true then n16 &&& 7 else 5) =
          max e.ly 3 := by
      cases hland : e.is_landscape with
      | true =>
        have hlt : h < w := of_decide_eq_true hland
        rw [hland] at h16eq hF7
        rw [if_pos rfl] at hF7
        rw [if_pos rfl, if_pos rfl] at h16eq
        have h15 : n16 >>> 15 = 1 := by rw [shiftRight_div]; omega
        have hmw : max w h = w := Nat.max_eq_left (le_of_lt hlt)
        have helx5 : e.lx = 5 := by
          rw [helx, haFlag]
          simp only [if_true, ite_true]
          rw [hmw]
          exact lGridDim_long (by omega) (by omega) (by omega)
        have hand7 : n16 &&& 7 = e.ly := by
          rw [show (7 : ℕ) = 2 ^ 3 - 1 by norm_num, and_mask]
          omega
        constructor
        · rw [h15, if_pos (by decide), helx5]
          omega
        · rw [h15, if_pos (by decide), hand7]
          omega
      | false =>
        have hnlt : ¬ h < w := of_decide_eq_false hland
        rw [hland] at h16eq hF7
        simp only [Bool.false_eq_true, if_false] at h16eq hF7
        have h15 : n16 >>> 15 = 0 := by rw [shiftRight_div]; omega
        have hmh : max w h = h := Nat.max_eq_right (by omega)
        have hely5 : e.ly = 5 := by
          rw [hely, haFlag]
          simp only [if_true, ite_true]
          rw [hmh]
          exact lGridDim_long (by omega) (by omega) (by omega)
        have hand7 : n16 &&& 7 = e.lx := by
          rw [show (7 : ℕ) = 2 ^ 3 - 1 by norm_num, and_mask]
          omega
        constructor
        · rw [h15, if_neg (by decide), hand7]
          omega
        · rw [h15, if_neg (by decide), hely5]
          omega
    obtain ⟨hgx1, hgx2⟩ := hgx
    rw [hashEq]
    unfold thumb_hash_to_rgba
    rw [hasp, except_bind_ok, hparse, except_bind_ok]
    dsimp only
    rw [hgx1, hgx2]
    simp only [decode_channel]
    rw [hch1, except_bind_ok]
    dsimp only
    rw [hch2, except_bind_ok]
    dsimp only
    rw [hch3, except_bind_ok]
    dsimp only
    simp only [if_true]
    rw [hch4, except_bind_ok]
    dsimp only
    rcases hdim : dimsFromRatio rv with ⟨dw, dh⟩
    exact ⟨_, rfl⟩

/-- Witness for C9: the roundtrip theorem applied at the concrete input
`w = h = 1`, `rgba = [10, 20, 30, 255]` with the constant-zero cosine
stand-in. -/
theorem C9_witness :
    (∀ x, |cosZero x| ≤ 1) ∧ (∀ b ∈ [10, 20, 30, 255], b < 256) ∧
    (1 ≤ 1 ∧ 1 ≤ 100) ∧ ([10, 20, 30, 255] : List ℕ).length = 1 * 1 * 4 ∧
    ∃ res, thumb_hash_to_rgba cosZero
      (rgba_to_thumb_hash cosZero 1 1 [10, 20, 30, 255]) = .ok res := by
  refine ⟨fun x => by simp [cosZero], by decide, ⟨le_rfl, by omega⟩, by decide, ?_⟩
  exact C9_roundtrip cosZero 1 1 [10, 20, 30, 255] (fun x => by simp [cosZero])
    (by decide) le_rfl (by omega) le_rfl (by omega) (by decide)

unseal Rat.mul Rat.add Rat.sub Rat.inv Rat.ofScientific in
/-- C9 counterexample to the claim as frozen: the degenerate `0 × 0`
image with empty `rgba` satisfies the encoder's own validity condition
(`w ≤ 100`, `h ≤ 100`, `rgba.length = 0 = 0 * 0 * 4`), yet decoding the
encoder's output returns exactly the `TooShort` error the claim says
can never occur.  The encoder's `0/0` grid computation gives
`lx = ly = 1` (NaN cast to 0, then `.max(1)`), so it runs a `3 × 3` L
grid and packs `5 + 5 + 5 = 15` nibbles into 8 bytes, but the header
stores dimension 1 with no axis carrying `l_limit = 7`, so the decoder
reconstructs a `max(3,1) × max(3,7) = 3 × 7` L grid and runs out of
nibbles. -/
theorem C9_counterexample :
    ((0 : ℕ) ≤ 100 ∧ (0 : ℕ) ≤ 100 ∧ ([] : List ℕ).length = 0 * 0 * 4) ∧
    rgba_to_thumb_hash cosZero 0 0 [] =
      [0, 8, 2, 1, 0, 0, 0, 0, 0, 0, 0, 0, 0] ∧
    thumb_hash_to_rgba cosZero (rgba_to_thumb_hash cosZero 0 0 []) =
      .error () :=
  ⟨⟨Nat.zero_le 100, Nat.zero_le 100, rfl⟩, rfl, rfl⟩

end ThumbHash
